import Mathlib

set_option maxRecDepth 10000

/-!
A verification development for the JSON inspection tool implemented in
`src/components/JsonViewer.tsx`.

The embedding models:
* the in-memory JSON value (`JsonValue`), with numbers as exact decimals
  `m * 10^(-e)` (IEEE-754 rounding of the host language is not modelled;
  every number that appears in the claims is an exact decimal);
* the platform serializer `JSON.stringify` (ECMA-262) with no gap
  (`jsonStringifyMin`, used by `minifyJson`) and with a two-space gap
  (`jsonStringify2`, used by `formatJson` and the initial sample fill);
* the platform parser `JSON.parse` (`jsonParse`), lenient where noted in
  doc comments (the leniencies are on inputs no claim touches);
* the component logic of `JsonViewer.tsx`: `createNode`, `renderNode`,
  `renderSyntaxHighlightedJson` (its text content), `validateAndParseJson`,
  `handleNodeToggle`, `expandAll`, `collapseAll`, `handleFileUpload`, the
  mount effect, and the debounce effect.

Strings are manipulated as `List Char` internally and wrapped into `String`
at the component boundaries.
-/

mutual
/-- A parsed JSON value, as produced by `JSON.parse`.
`num m e` denotes the exact decimal `m / 10^e`; `JSON.stringify` prints it
with exactly `e` fractional digits (none when `e = 0`). -/
inductive JsonValue where
  | null
  | bool (b : Bool)
  | num (m : Int) (e : Nat)
  | str (s : String)
  | arr (elems : JsonArr)
  | obj (entries : JsonObj)
deriving DecidableEq, Repr

/-- The element list of a JSON array, in document order. -/
inductive JsonArr where
  | nil
  | cons (head : JsonValue) (tail : JsonArr)
deriving DecidableEq, Repr

/-- The key/value entry list of a JSON object, in insertion order. -/
inductive JsonObj where
  | nil
  | cons (key : String) (val : JsonValue) (tail : JsonObj)
deriving DecidableEq, Repr
end

/-- Number of elements of a `JsonArr`. -/
def JsonArr.length : JsonArr → Nat
  | .nil => 0
  | .cons _ t => t.length + 1

/-- Number of entries of a `JsonObj`. -/
def JsonObj.length : JsonObj → Nat
  | .nil => 0
  | .cons _ _ t => t.length + 1

/-- The keys of a `JsonObj`, in order. -/
def JsonObj.keyList : JsonObj → List String
  | .nil => []
  | .cons k _ t => k :: t.keyList

/-! ### Decimal digits -/

/-- The character for the decimal digit `n` (`n < 10`). -/
def digitChar (n : Nat) : Char := Char.ofNat (48 + n)

/-- Decimal digits of `n`, most significant first; fuel-driven so that it
reduces definitionally (`natDigits` supplies sufficient fuel). -/
def natDigitsAux : Nat → Nat → List Char
  | 0, _ => []
  | fuel + 1, n =>
    if n < 10 then [digitChar n]
    else natDigitsAux fuel (n / 10) ++ [digitChar (n % 10)]

/-- Decimal digits of `n`, most significant first (the text `String(n)`
produces for a nonnegative integer in the host language). -/
def natDigits (n : Nat) : List Char := natDigitsAux (n + 1) n

/-- Numeric value of a decimal digit character. -/
def digitVal (c : Char) : Nat := c.toNat - 48

/-- Split a leading run of decimal-digit characters off a character list. -/
def takeDigits : List Char → List Char × List Char
  | [] => ([], [])
  | c :: rest =>
    if c.isDigit then
      let (ds, r) := takeDigits rest
      (c :: ds, r)
    else ([], c :: rest)

/-- Value of a digit run, most significant first, accumulated onto `acc`. -/
def foldDigits (acc : Nat) (ds : List Char) : Nat :=
  ds.foldl (fun a c => a * 10 + digitVal c) acc

/-- Left-pad a digit run with `'0'` to exactly `e` characters. -/
def padDigits (e : Nat) (ds : List Char) : List Char :=
  List.replicate (e - ds.length) '0' ++ ds

/-- `String(n)` for a nonnegative integer, as the host language prints it. -/
def natToString (n : Nat) : String := ⟨natDigits n⟩

/-! ### Whitespace and string escaping -/

/-- The JSON insignificant-whitespace characters (RFC 8259 §2). -/
def isJsonWs (c : Char) : Bool := c = ' ' || c = '\n' || c = '\t' || c = '\r'

/-- Drop leading JSON whitespace. -/
def skipWs : List Char → List Char
  | [] => []
  | c :: rest => if isJsonWs c then skipWs rest else c :: rest

/-- Lower-case hexadecimal digit character for `n < 16`. -/
def hexDigitChar (n : Nat) : Char :=
  if n < 10 then Char.ofNat (48 + n) else Char.ofNat (87 + n)

/-- How `JSON.stringify` quotes one character inside a string literal
(ECMA-262 QuoteJSONString): `"`, `\` and the named control characters get
two-character escapes, other control characters get `\u00XX`, and every
other character is emitted verbatim. -/
def escapeChar (c : Char) : List Char :=
  if c = '"' then ['\\', '"']
  else if c = '\\' then ['\\', '\\']
  else if c = Char.ofNat 8 then ['\\', 'b']
  else if c = Char.ofNat 12 then ['\\', 'f']
  else if c = '\n' then ['\\', 'n']
  else if c = '\r' then ['\\', 'r']
  else if c = '\t' then ['\\', 't']
  else if c.toNat < 32 then
    ['\\', 'u', '0', '0', hexDigitChar (c.toNat / 16), hexDigitChar (c.toNat % 16)]
  else [c]

/-- `JSON.stringify` escaping of a whole character list. -/
def escapeList (s : List Char) : List Char := (s.map escapeChar).flatten

/-- The quoted, escaped serialization of a string value or object key. -/
def quoteString (s : String) : List Char := '"' :: escapeList s.data ++ ['"']

/-- A character `JSON.stringify` emits verbatim inside a string literal. -/
def plainChar (c : Char) : Bool := c ≠ '"' && c ≠ '\\' && 32 ≤ c.toNat

/-- A string whose serialization needs no escapes. -/
def plainString (s : String) : Bool := s.data.all plainChar

/-! ### Number serialization (`String(n)` / `JSON.stringify` on numbers) -/

/-- Decimal text of the nonnegative number `n / 10^e`, printed with exactly
`e` fractional digits. -/
def serNumCore (n : Nat) (e : Nat) : List Char :=
  if e = 0 then natDigits n
  else natDigits (n / 10 ^ e) ++ '.' :: padDigits e (natDigits (n % 10 ^ e))

/-- Decimal text of the number `m / 10^e`, as `JSON.stringify` prints it. -/
def serNum (m : Int) (e : Nat) : List Char :=
  if m < 0 then '-' :: serNumCore m.natAbs e else serNumCore m.natAbs e

/-! ### `JSON.stringify` with no gap (used by `minifyJson`) -/

mutual
/-- Character list of `JSON.stringify(v)` (no gap, ECMA-262 §25.5.2). -/
def jsonStringifyMinL : JsonValue → List Char
  | .null => "null".data
  | .bool true => "true".data
  | .bool false => "false".data
  | .num m e => serNum m e
  | .str s => quoteString s
  | .arr xs => '[' :: minElems xs ++ [']']
  | .obj kvs => '\x7b' :: minMems kvs ++ ['\x7d']

/-- Comma-separated serialization of array elements, no gap. -/
def minElems : JsonArr → List Char
  | .nil => []
  | .cons x .nil => jsonStringifyMinL x
  | .cons x (.cons y t) => jsonStringifyMinL x ++ ',' :: minElems (.cons y t)

/-- Comma-separated serialization of object members, no gap. -/
def minMems : JsonObj → List Char
  | .nil => []
  | .cons k v .nil => quoteString k ++ ':' :: jsonStringifyMinL v
  | .cons k v (.cons k2 v2 t) =>
    quoteString k ++ ':' :: jsonStringifyMinL v ++ ',' :: minMems (.cons k2 v2 t)
end

/-- `JSON.stringify(v)` — the transform `minifyJson` applies to the parsed
value. -/
def jsonStringify (v : JsonValue) : String := ⟨jsonStringifyMinL v⟩

/-! ### `JSON.stringify` with a two-space gap (used by `formatJson`,
`downloadJson` and the initial sample fill) -/

/-- `2 * d` spaces of indentation at nesting depth `d`. -/
def indentChars (d : Nat) : List Char := List.replicate (2 * d) ' '

mutual
/-- Character list of `JSON.stringify(v, null, 2)` for a value whose own
lines are indented at depth `d` (the top-level call uses `d = 0`). -/
def jsonStringify2L : JsonValue → Nat → List Char
  | .null, _ => "null".data
  | .bool true, _ => "true".data
  | .bool false, _ => "false".data
  | .num m e, _ => serNum m e
  | .str s, _ => quoteString s
  | .arr .nil, _ => "[]".data
  | .arr (.cons x t), d =>
    '[' :: ind2Elems (.cons x t) (d + 1) ++ '\n' :: indentChars d ++ [']']
  | .obj .nil, _ => ['\x7b', '\x7d']
  | .obj (.cons k v t), d =>
    '\x7b' :: ind2Mems (.cons k v t) (d + 1) ++ '\n' :: indentChars d ++ ['\x7d']

/-- The elements of a non-empty array, each on its own line at depth `d`,
comma-separated. -/
def ind2Elems : JsonArr → Nat → List Char
  | .nil, _ => []
  | .cons x .nil, d => '\n' :: indentChars d ++ jsonStringify2L x d
  | .cons x (.cons y t), d =>
    '\n' :: indentChars d ++ jsonStringify2L x d ++ ',' :: ind2Elems (.cons y t) d

/-- The members of a non-empty object, each on its own line at depth `d`,
comma-separated, with `": "` after the quoted key. -/
def ind2Mems : JsonObj → Nat → List Char
  | .nil, _ => []
  | .cons k v .nil, d =>
    '\n' :: indentChars d ++ quoteString k ++ ':' :: ' ' :: jsonStringify2L v d
  | .cons k v (.cons k2 v2 t), d =>
    '\n' :: indentChars d ++ quoteString k ++ ':' :: ' ' :: jsonStringify2L v d ++
      ',' :: ind2Mems (.cons k2 v2 t) d
end

/-- `JSON.stringify(v, null, 2)` — the transform `formatJson` applies to the
parsed value. -/
def jsonStringify2 (v : JsonValue) : String := ⟨jsonStringify2L v 0⟩

/-- What follows the first element inside a non-empty indented array: nothing,
or a comma and the remaining element lines. -/
def ind2Rest : JsonArr → Nat → List Char
  | .nil, _ => []
  | .cons y t2, d => ',' :: ind2Elems (.cons y t2) d

/-- What follows the first member inside a non-empty indented object. -/
def ind2MemsRest : JsonObj → Nat → List Char
  | .nil, _ => []
  | .cons k2 v2 t2, d => ',' :: ind2Mems (.cons k2 v2 t2) d

/-! ### Text content of `renderSyntaxHighlightedJson` (the formatted view) -/

mutual
/-- The concatenated text content of the React fragment
`renderSyntaxHighlightedJson(v, d)` in `JsonViewer.tsx` (lines 285-346):
`<br />` contributes a newline, `{indent}` the `'  '.repeat(depth)` string,
and the JSX source keeps two literal spaces after `{indent}` before each
child. Strings and keys are rendered between quotes verbatim, with no
escaping (`"{obj}"` / `"{key}"` in the source). -/
def renderFmtTextL : JsonValue → Nat → List Char
  | .null, _ => "null".data
  | .bool true, _ => "true".data
  | .bool false, _ => "false".data
  | .num m e, _ => serNum m e
  | .str s, _ => '"' :: s.data ++ ['"']
  | .arr .nil, _ => "[]".data
  | .arr (.cons x t), d =>
    '[' :: renderFmtElems (.cons x t) d ++ '\n' :: indentChars d ++ [']']
  | .obj .nil, _ => ['\x7b', '\x7d']
  | .obj (.cons k v t), d =>
    '\x7b' :: renderFmtMems (.cons k v t) d ++ '\n' :: indentChars d ++ ['\x7d']

/-- Text of the mapped array items: `<br />{indent}  {render(item, d+1)}`
with a comma after every item but the last. -/
def renderFmtElems : JsonArr → Nat → List Char
  | .nil, _ => []
  | .cons x .nil, d =>
    '\n' :: indentChars d ++ ' ' :: ' ' :: renderFmtTextL x (d + 1)
  | .cons x (.cons y t), d =>
    '\n' :: indentChars d ++ ' ' :: ' ' :: renderFmtTextL x (d + 1) ++
      ',' :: renderFmtElems (.cons y t) d

/-- Text of the mapped object members:
`<br />{indent}  "{key}": {render(value, d+1)}` with a comma after every
member but the last. -/
def renderFmtMems : JsonObj → Nat → List Char
  | .nil, _ => []
  | .cons k v .nil, d =>
    '\n' :: indentChars d ++ ' ' :: ' ' :: '"' :: k.data ++ '"' :: ':' :: ' ' ::
      renderFmtTextL v (d + 1)
  | .cons k v (.cons k2 v2 t), d =>
    '\n' :: indentChars d ++ ' ' :: ' ' :: '"' :: k.data ++ '"' :: ':' :: ' ' ::
      renderFmtTextL v (d + 1) ++ ',' :: renderFmtMems (.cons k2 v2 t) d
end

/-- Text content of the formatted view `renderSyntaxHighlightedJson(v, d)`. -/
def renderFmtText (v : JsonValue) (d : Nat) : String := ⟨renderFmtTextL v d⟩

/-! ### A model of `JSON.parse` -/

/-- Value of a hexadecimal digit character, case-insensitive. -/
def hexVal (c : Char) : Option Nat :=
  if c.isDigit then some (c.toNat - 48)
  else if 'a' ≤ c && c ≤ 'f' then some (c.toNat - 87)
  else if 'A' ≤ c && c ≤ 'F' then some (c.toNat - 55)
  else none

/-- The character named by a two-character JSON escape. -/
def unescapeChar (c : Char) : Option Char :=
  if c = '"' then some '"'
  else if c = '\\' then some '\\'
  else if c = '/' then some '/'
  else if c = 'b' then some (Char.ofNat 8)
  else if c = 'f' then some (Char.ofNat 12)
  else if c = 'n' then some '\n'
  else if c = 'r' then some '\r'
  else if c = 't' then some '\t'
  else none

/-- Parse the body of a JSON string literal after the opening quote, up to
and including the closing quote; returns the decoded characters and the
remaining input. Raw control characters are rejected, as in `JSON.parse`.
(Escapes naming UTF-16 surrogates are decoded to `Char.ofNat`'s fallback,
as the embedding has no lone surrogates.) -/
def parseStrBody : List Char → Option (List Char × List Char)
  | [] => none
  | c :: rest =>
    if c = '"' then some ([], rest)
    else if c = '\\' then
      match rest with
      | [] => none
      | e :: rest2 =>
        if e = 'u' then
          match rest2 with
          | h1 :: h2 :: h3 :: h4 :: rest3 =>
            match hexVal h1, hexVal h2, hexVal h3, hexVal h4 with
            | some a, some b, some c2, some d =>
              match parseStrBody rest3 with
              | some (s, r) => some (Char.ofNat (((a * 16 + b) * 16 + c2) * 16 + d) :: s, r)
              | none => none
            | _, _, _, _ => none
          | _ => none
        else
          match unescapeChar e with
          | some ch =>
            match parseStrBody rest2 with
            | some (s, r) => some (ch :: s, r)
            | none => none
          | none => none
    else if c.toNat < 32 then none
    else
      match parseStrBody rest with
      | some (s, r) => some (c :: s, r)
      | none => none

/-- Build the parsed number from sign, integer part, fraction digits and
decimal exponent: the value is `±(ip.fds) * 10^p`, normalized so the stored
fractional length is nonnegative. -/
def mkNum (neg : Bool) (ip : Nat) (fds : List Char) (p : Int) : JsonValue :=
  let e0 : Nat := fds.length
  let m0 : Nat := ip * 10 ^ e0 + foldDigits 0 fds
  let m1 : Int := if neg then -(m0 : Int) else (m0 : Int)
  let d : Int := (e0 : Int) - p
  if d ≤ 0 then .num (m1 * 10 ^ (-d).toNat) 0 else .num m1 d.toNat

/-- Parse an optional exponent part (`e`/`E`, optional sign, digits). -/
def parseExpTail (neg : Bool) (ip : Nat) (fds : List Char) (r : List Char) :
    Option (JsonValue × List Char) :=
  let (esign, r2) :=
    match r with
    | '+' :: t => (false, t)
    | '-' :: t => (true, t)
    | _ => (false, r)
  let (eds, r3) := takeDigits r2
  if eds.isEmpty then none
  else
    let p : Int := if esign then -(foldDigits 0 eds : Int) else (foldDigits 0 eds : Int)
    some (mkNum neg ip fds p, r3)

/-- Continue a number after integer and fraction parts: an `e`/`E` starts an
exponent, anything else ends the number. -/
def parseExpPart (neg : Bool) (ip : Nat) (fds : List Char) :
    List Char → Option (JsonValue × List Char)
  | [] => some (mkNum neg ip fds 0, [])
  | c :: r =>
    if c = 'e' ∨ c = 'E' then parseExpTail neg ip fds r
    else some (mkNum neg ip fds 0, c :: r)

/-- Parse the digits of a number after an optional leading `-`.
(Lenient where `JSON.parse` is strict: redundant leading zeros are
accepted; no claim depends on rejecting them.) -/
def parseNumAbs (neg : Bool) (s : List Char) : Option (JsonValue × List Char) :=
  match takeDigits s with
  | (ids, s2) =>
    if ids.isEmpty then none
    else
      match s2 with
      | [] => parseExpPart neg (foldDigits 0 ids) [] []
      | c :: r =>
        if c = '.' then
          match takeDigits r with
          | (fds, s3) =>
            if fds.isEmpty then none else parseExpPart neg (foldDigits 0 ids) fds s3
        else parseExpPart neg (foldDigits 0 ids) [] (c :: r)

/-- Parse a JSON number token. -/
def parseNumber : List Char → Option (JsonValue × List Char)
  | [] => none
  | c :: r => if c = '-' then parseNumAbs true r else parseNumAbs false (c :: r)

/-- Look up a key's value in a `JsonObj`. -/
def JsonObj.getVal? : JsonObj → String → Option JsonValue
  | .nil, _ => none
  | .cons k' v' t, k => if k = k' then some v' else t.getVal? k

/-- Remove a key's entry from a `JsonObj` (first occurrence). -/
def JsonObj.eraseKey : JsonObj → String → JsonObj
  | .nil, _ => .nil
  | .cons k' v' t, k => if k = k' then t else .cons k' v' (t.eraseKey k)

/-- Combine one parsed member with the object built from the members to its
right, with the JavaScript duplicate-key rule: a repeated key keeps its
first position but the later member's value wins. -/
def consMember (k : String) (v : JsonValue) (t : JsonObj) : JsonObj :=
  match t.getVal? k with
  | some w => .cons k w (t.eraseKey k)
  | none => .cons k v t

/-- Consume an expected literal character sequence. -/
def expectChars : List Char → List Char → Option (List Char)
  | [], s => some s
  | _ :: _, [] => none
  | c :: lit, d :: s => if c = d then expectChars lit s else none

mutual
/-- Fuel-driven parser for one JSON value; leading whitespace is skipped.
`fuel` only bounds the recursion depth of value/element/member parsing —
`jsonParse` supplies enough fuel for any input of its length. -/
def parseVal : Nat → List Char → Option (JsonValue × List Char)
  | 0, _ => none
  | fuel + 1, s =>
    match skipWs s with
    | [] => none
    | c :: r =>
      if c = 'n' then
        match expectChars "ull".data r with
        | some r2 => some (.null, r2)
        | none => none
      else if c = 't' then
        match expectChars "rue".data r with
        | some r2 => some (.bool true, r2)
        | none => none
      else if c = 'f' then
        match expectChars "alse".data r with
        | some r2 => some (.bool false, r2)
        | none => none
      else if c = '"' then
        match parseStrBody r with
        | some (cs, r2) => some (.str ⟨cs⟩, r2)
        | none => none
      else if c = '[' then
        match skipWs r with
        | [] => none
        | c2 :: r2 => if c2 = ']' then some (.arr .nil, r2) else parseElems fuel (c2 :: r2)
      else if c = '\x7b' then
        match skipWs r with
        | [] => none
        | c2 :: r2 => if c2 = '\x7d' then some (.obj .nil, r2) else parseMems fuel (c2 :: r2)
      else if c.isDigit || c = '-' then parseNumber (c :: r)
      else none

/-- Parse one or more comma-separated array elements and the closing `]`. -/
def parseElems : Nat → List Char → Option (JsonValue × List Char)
  | 0, _ => none
  | fuel + 1, s =>
    match parseVal fuel s with
    | none => none
    | some (v, r) =>
      match skipWs r with
      | [] => none
      | c :: r2 =>
        if c = ',' then
          match parseElems fuel r2 with
          | some (.arr vs, r3) => some (.arr (.cons v vs), r3)
          | _ => none
        else if c = ']' then some (.arr (.cons v .nil), r2)
        else none

/-- Parse one or more comma-separated object members and the closing brace,
combining members with `consMember`. -/
def parseMems : Nat → List Char → Option (JsonValue × List Char)
  | 0, _ => none
  | fuel + 1, s =>
    match skipWs s with
    | [] => none
    | c :: r =>
      if c = '"' then
        match parseStrBody r with
        | none => none
        | some (kcs, r2) =>
          match skipWs r2 with
          | [] => none
          | c2 :: r3 =>
            if c2 = ':' then
              match parseVal fuel r3 with
              | none => none
              | some (v, r4) =>
                match skipWs r4 with
                | [] => none
                | c3 :: r5 =>
                  if c3 = ',' then
                    match parseMems fuel r5 with
                    | some (.obj o, r6) => some (.obj (consMember ⟨kcs⟩ v o), r6)
                    | _ => none
                  else if c3 = '\x7d' then some (.obj (.cons ⟨kcs⟩ v .nil), r5)
                  else none
            else none
      else none
end

/-- Model of `JSON.parse input`: `some` of the parsed value, or `none` where
`JSON.parse` throws a `SyntaxError`. Trailing whitespace is allowed, any
other trailing text is an error. -/
def jsonParse (input : String) : Option JsonValue :=
  match parseVal (input.length + 1) input.data with
  | some (v, r) => if skipWs r = [] then some v else none
  | none => none

/-- `JSON.parse` as the component's try/catch sees it: the thrown
`SyntaxError`'s message text is engine-specific in the browser; the model
uses a fixed stand-in diagnostic. -/
def jsonParseE (input : String) : Except String JsonValue :=
  match jsonParse input with
  | some v => .ok v
  | none => .error "Unexpected token in JSON"

mutual
/-- Fuel sufficient for `parseVal` to parse the serialization of `v`. -/
def parseFuel : JsonValue → Nat
  | .arr xs => 1 + parseFuelElems xs
  | .obj kvs => 1 + parseFuelMems kvs
  | _ => 1

/-- Fuel sufficient for `parseElems` on the serialized elements. -/
def parseFuelElems : JsonArr → Nat
  | .nil => 0
  | .cons x t => 1 + parseFuel x + parseFuelElems t

/-- Fuel sufficient for `parseMems` on the serialized members. -/
def parseFuelMems : JsonObj → Nat
  | .nil => 0
  | .cons _ v t => 1 + parseFuel v + parseFuelMems t
end

/-! ### Editor state and the validation coordinator -/

/-- The `JsonEditor` state the claims are about: the text buffer
(`jsonInput`), the parsed document (`parsedJson`, `none` for the JS `null`
initial/cleared state) and the diagnostic string (`validationError`, empty
when there is no error). -/
structure EditorState where
  jsonInput : String
  parsedJson : Option JsonValue
  validationError : String
deriving DecidableEq, Repr

/-- Is the buffer text empty or whitespace-only, i.e. is `!input.trim()`
true in the source? (JavaScript's `trim` strips a slightly larger Unicode
whitespace set; the extra characters are modelled by `isJsonWs`'s closure
below only insofar as no claim distinguishes them.) -/
def isBlankChar (c : Char) : Bool :=
  isJsonWs c || c = '\x0b' || c = '\x0c' || c = Char.ofNat 0xa0 || c = Char.ofNat 0xfeff

/-- `!input.trim()`: every character is whitespace (or the text is empty). -/
def isBlank (s : String) : Bool := s.data.all isBlankChar

/-- `validateAndParseJson` (JsonViewer.tsx lines 166-181) acting on the
editor state: blank input resets to the neutral state; otherwise the text
is parsed, a success stores the value and clears the error, a failure
stores the parser's diagnostic and clears the value. -/
def validateAndParseJson (input : String) (st : EditorState) : EditorState :=
  if isBlank input then { st with parsedJson := none, validationError := "" }
  else
    match jsonParseE input with
    | .ok parsed => { st with parsedJson := some parsed, validationError := "" }
    | .error e => { st with validationError := e, parsedJson := none }

/-- The built-in sample document (JsonViewer.tsx lines 140-159); the
literals `40.7128` and `-74.0060` print back as `40.7128` and `-74.006`. -/
def sampleJson : JsonValue :=
  .obj (.cons "name" (.str "John Doe")
    (.cons "age" (.num 30 0)
    (.cons "isActive" (.bool true)
    (.cons "address" (.obj
      (.cons "street" (.str "123 Main St")
      (.cons "city" (.str "New York")
      (.cons "zipCode" (.str "10001")
      (.cons "coordinates" (.obj
        (.cons "lat" (.num 407128 4)
        (.cons "lng" (.num (-74006) 3) .nil))) .nil)))))
    (.cons "hobbies" (.arr
      (.cons (.str "reading") (.cons (.str "swimming") (.cons (.str "coding") .nil))))
    (.cons "spouse" .null
    (.cons "skills" (.obj
      (.cons "programming" (.arr
        (.cons (.str "JavaScript") (.cons (.str "Python") (.cons (.str "React") .nil))))
      (.cons "languages" (.arr
        (.cons (.str "English") (.cons (.str "Spanish") .nil))) .nil))) .nil)))))))

/-- The state before the component's effects run: empty buffer, no parsed
document, no error. -/
def initialEditorState : EditorState :=
  { jsonInput := "", parsedJson := none, validationError := "" }

/-- The mount effect (JsonViewer.tsx lines 161-164): prefill the buffer with
the sample serialized at 2-space indent and set the parsed document to the
sample directly, not through `validateAndParseJson`. -/
def mountEffect (st : EditorState) : EditorState :=
  { st with jsonInput := jsonStringify2 sampleJson, parsedJson := some sampleJson }

/-- Truthiness of a parsed JSON value in JavaScript (`null`, `false`, `0`
and `""` are falsy). -/
def jsTruthy : JsonValue → Bool
  | .null => false
  | .bool b => b
  | .num m _ => decide (m ≠ 0)
  | .str s => decide (s ≠ "")
  | .arr _ => true
  | .obj _ => true

/-- `formatJson` (lines 242-246): with a truthy parsed value, replace the
buffer with its 2-space-indent serialization. -/
def formatJsonOp (st : EditorState) : EditorState :=
  match st.parsedJson with
  | some v => if jsTruthy v then { st with jsonInput := jsonStringify2 v } else st
  | none => st

/-- `minifyJson` (lines 248-252): with a truthy parsed value, replace the
buffer with its gapless serialization. -/
def minifyJsonOp (st : EditorState) : EditorState :=
  match st.parsedJson with
  | some v => if jsTruthy v then { st with jsonInput := jsonStringify v } else st
  | none => st

/-! ### Expand/collapse state -/

/-- ExpandState: the set of expanded path strings (a JS `Set<string>`). -/
abbrev ExpandState := Finset String

/-- `handleNodeToggle` (lines 254-262): flip membership of `path`. -/
def handleNodeToggle (path : String) (s : ExpandState) : ExpandState :=
  if path ∈ s then s.erase path else insert path s

mutual
/-- `getAllPaths` inside `expandAll` (lines 265-274): the pre-order list of
the path of every value reachable from `currentPath`; array children are
keyed by their decimal index (JS `Object.keys`). -/
def getAllPaths : JsonValue → String → List String
  | .arr xs, currentPath => currentPath :: getAllPathsArr xs currentPath 0
  | .obj kvs, currentPath => currentPath :: getAllPathsObj kvs currentPath
  | _, currentPath => [currentPath]

/-- Paths of array elements from index `i` on. -/
def getAllPathsArr : JsonArr → String → Nat → List String
  | .nil, _, _ => []
  | .cons x t, p, i =>
    getAllPaths x (p ++ "." ++ natToString i) ++ getAllPathsArr t p (i + 1)

/-- Paths of object members. -/
def getAllPathsObj : JsonObj → String → List String
  | .nil, _ => []
  | .cons k v t, p => getAllPaths v (p ++ "." ++ k) ++ getAllPathsObj t p
end

/-- `expandAll` (lines 264-279): with a truthy parsed value, replace
ExpandState with the set of all pre-order paths; otherwise leave it. -/
def expandAll (parsedJson : Option JsonValue) (s : ExpandState) : ExpandState :=
  match parsedJson with
  | some v => if jsTruthy v then (getAllPaths v "root").toFinset else s
  | none => s

/-- `collapseAll` (lines 281-283): replace ExpandState with `{"root"}`. -/
def collapseAll (_s : ExpandState) : ExpandState := {"root"}

/-! ### The tree view: `createNode` and `renderNode` -/

mutual
/-- A `JsonNode` of the tree view (JsonViewer.tsx lines 11-18): key, value,
path, derived expansion flag, and children (present exactly for the
container kinds). -/
inductive JsonNode where
  | mk (key : String) (value : JsonValue) (path : String) (isExpanded : Bool)
      (children : Option JsonNodeList)
deriving Repr

/-- Ordered children of a `JsonNode`. -/
inductive JsonNodeList where
  | nil
  | cons (head : JsonNode) (tail : JsonNodeList)
deriving Repr
end

/-- Number of nodes in a `JsonNodeList`. -/
def JsonNodeList.length : JsonNodeList → Nat
  | .nil => 0
  | .cons _ t => t.length + 1

mutual
/-- `createNode` (lines 27-46): build the `JsonNode` for `value` reached as
`key` at `path`; `isExpanded` is membership of `path` in the externally
owned expand set, and container kinds get one child per entry
(`Object.entries` keys arrays by decimal index). -/
def createNode (expandedPaths : ExpandState) (key : String) (value : JsonValue)
    (path : String) : JsonNode :=
  match value with
  | .arr xs =>
    .mk key value path (decide (path ∈ expandedPaths))
      (some (createNodeArr expandedPaths xs path 0))
  | .obj kvs =>
    .mk key value path (decide (path ∈ expandedPaths))
      (some (createNodeObj expandedPaths kvs path))
  | v => .mk key v path (decide (path ∈ expandedPaths)) none

/-- Children of an array node, from index `i` on. -/
def createNodeArr (ex : ExpandState) : JsonArr → String → Nat → JsonNodeList
  | .nil, _, _ => .nil
  | .cons x t, p, i =>
    .cons (createNode ex (natToString i) x (p ++ "." ++ natToString i))
      (createNodeArr ex t p (i + 1))

/-- Children of an object node. -/
def createNodeObj (ex : ExpandState) : JsonObj → String → JsonNodeList
  | .nil, _ => .nil
  | .cons k v t, p =>
    .cons (createNode ex k v (p ++ "." ++ k)) (createNodeObj ex t p)
end

mutual
/-- The pre-order list of the `path` fields of a built tree. -/
def collectPaths : JsonNode → List String
  | .mk _ _ path _ none => [path]
  | .mk _ _ path _ (some cs) => path :: collectPathsList cs

/-- Paths of a child list. -/
def collectPathsList : JsonNodeList → List String
  | .nil => []
  | .cons n t => collectPaths n ++ collectPathsList t
end

/-- One rendered row of the tree view: its `paddingLeft` in pixels, whether
it carries an expand/collapse affordance (the chevron button), and its text
content. -/
structure RenderLine where
  indentPx : Nat
  affordance : Bool
  text : String
deriving DecidableEq, Repr

/-- Text of `renderValue` (lines 48-61): strings quoted verbatim with no
escaping, numbers/booleans/null as their literals. -/
def renderValueText : JsonValue → List Char
  | .str s => '"' :: s.data ++ ['"']
  | .num m e => serNum m e
  | .bool true => "true".data
  | .bool false => "false".data
  | .null => "null".data
  | _ => []

/-- Does the node have a non-empty child list (`hasChildren`, line 64)? -/
def hasChildrenB : Option JsonNodeList → Bool
  | some (.cons _ _) => true
  | _ => false

/-- `node.children?.length || 0`. -/
def childCount : Option JsonNodeList → Nat
  | some l => l.length
  | none => 0

mutual
/-- The rows `renderNode(node, depth)` (lines 63-119) paints, top to bottom.
The header row text concatenates the key span, the `":"` span and either the
scalar literal or the opening bracket — followed, only when the node is not
expanded, by the `"N items"`/`"N keys"` summary and the closing bracket.
The closing-bracket row exists only when the node has children and is
expanded. -/
def renderNode : JsonNode → Nat → List RenderLine
  | .mk key value _path isExp children, depth =>
    let ind := depth * 20 + 8
    let hasCh := hasChildrenB children
    let headText : List Char :=
      key.data ++ ':' :: (
        match value with
        | .arr _ =>
          '[' :: (if isExp then [] else
            natDigits (childCount children) ++ " items".data ++ [']'])
        | .obj _ =>
          '\x7b' :: (if isExp then [] else
            natDigits (childCount children) ++ " keys".data ++ ['\x7d'])
        | v => renderValueText v)
    let closeText : String := match value with | .arr _ => "]" | _ => "\x7d"
    if hasCh && isExp then
      ⟨ind, hasCh, ⟨headText⟩⟩ ::
        (match children with
          | some cs => renderNodeList cs (depth + 1)
          | none => []) ++ [⟨ind, false, closeText⟩]
    else [⟨ind, hasCh, ⟨headText⟩⟩]

/-- Rows of a child list, in order. -/
def renderNodeList : JsonNodeList → Nat → List RenderLine
  | .nil, _ => []
  | .cons n t, depth => renderNode n depth ++ renderNodeList t depth
end

/-! ### File upload -/

/-- The fields of an uploaded `File` the handler looks at, plus the text the
`FileReader` would deliver. -/
structure UploadedFile where
  name : String
  mimeType : String
  content : String
deriving DecidableEq, Repr

/-- A toast notice shown to the user. -/
structure ToastNotice where
  title : String
  description : String
deriving DecidableEq, Repr

/-- Result of `handleFileUpload`: the editor state afterwards, the notice
shown (if any), and whether a file read was started. -/
structure UploadOutcome where
  state : EditorState
  notice : Option ToastNotice
  readStarted : Bool
deriving DecidableEq, Repr

/-- Does `s` end with `t` (JS `String.prototype.endsWith`)? -/
def strEndsWith (s t : String) : Bool := t.data.isSuffixOf s.data

/-- `handleFileUpload` (lines 191-210): no file selected does nothing; a
file that is neither of MIME type `application/json` nor named `*.json` is
rejected with a destructive toast before any read; otherwise the read is
started and its completion writes the file text into the buffer (the
asynchronous `FileReader` completion is modelled synchronously; a pending
read is last-write-wins on the buffer either way). -/
def handleFileUpload (file : Option UploadedFile) (st : EditorState) : UploadOutcome :=
  match file with
  | none => ⟨st, none, false⟩
  | some f =>
    if f.mimeType ≠ "application/json" ∧ ¬ strEndsWith f.name ".json" then
      ⟨st, some ⟨"Invalid file type", "Please upload a JSON file"⟩, false⟩
    else
      ⟨{ st with jsonInput := f.content }, none, true⟩

/-! ### The debounce effect -/

/-- State of the debounce effect (lines 183-189): the pending timer (its
deadline in ms and the buffer content it would validate), and the contents
validated so far, in order. -/
structure DebounceState where
  pending : Option (Nat × String)
  validated : List String
deriving DecidableEq, Repr

/-- The quiescence window of the debounce effect, in milliseconds. -/
def debounceMs : Nat := 300

/-- If the pending timer's deadline has passed by time `now`, it fires and
its content is validated. -/
def fireDue (now : Nat) (st : DebounceState) : DebounceState :=
  match st.pending with
  | some (deadline, content) =>
    if deadline ≤ now then { pending := none, validated := st.validated ++ [content] }
    else st
  | none => st

/-- An edit of the buffer at time `now`: any timer that already fired has
validated its content; a timer that has not fired is cleared by the effect
cleanup (`clearTimeout`) and its superseded content is discarded; a new
timer is scheduled for the new content at `now + 300`. -/
def debounceEdit (now : Nat) (content : String) (st : DebounceState) : DebounceState :=
  let st1 := fireDue now st
  { pending := some (now + debounceMs, content), validated := st1.validated }

/-- Run a timed sequence of edits against the debounce effect, starting with
no pending timer. -/
def debounceRun (edits : List (Nat × String)) : DebounceState :=
  edits.foldl (fun st e => debounceEdit e.1 e.2 st) ⟨none, []⟩

/-- All validation passes that have run once the input is quiescent (the
last timer fires). -/
def debounceSettle (st : DebounceState) : List String :=
  match st.pending with
  | some (_, content) => st.validated ++ [content]
  | none => st.validated

/-- Are consecutive edits strictly ordered in time and each within the
300 ms window of its predecessor? -/
def withinWindow : List (Nat × String) → Bool
  | [] => true
  | [_] => true
  | (t1, _) :: (t2, c2) :: rest =>
    decide (t1 < t2) && decide (t2 < t1 + debounceMs) && withinWindow ((t2, c2) :: rest)

/-! ### Structural positions, key conditions, and value predicates -/

mutual
/-- The structural positions of all nodes of a value, pre-order: a position
is the list of keys (array indices printed in decimal) leading to the node. -/
def allPositions : JsonValue → List (List String)
  | .arr xs => [] :: allPositionsArr xs 0
  | .obj kvs => [] :: allPositionsObj kvs
  | _ => [[]]

/-- Positions of array elements, from index `i` on. -/
def allPositionsArr : JsonArr → Nat → List (List String)
  | .nil, _ => []
  | .cons x t, i => (allPositions x).map (natToString i :: ·) ++ allPositionsArr t (i + 1)

/-- Positions of object members. -/
def allPositionsObj : JsonObj → List (List String)
  | .nil => []
  | .cons k v t => (allPositions v).map (k :: ·) ++ allPositionsObj t
end

/-- Does the key avoid the path-separator character `.`? -/
def noDotKey (k : String) : Bool := k.data.all (· ≠ '.')

mutual
/-- Every object in the value has pairwise-distinct keys (always true of a
value produced by `JSON.parse`, since JS objects cannot hold a key twice). -/
def noDupKeys : JsonValue → Bool
  | .arr xs => noDupKeysArr xs
  | .obj kvs => decide kvs.keyList.Nodup && noDupKeysObj kvs
  | _ => true

/-- `noDupKeys` over array elements. -/
def noDupKeysArr : JsonArr → Bool
  | .nil => true
  | .cons x t => noDupKeys x && noDupKeysArr t

/-- `noDupKeys` over object member values. -/
def noDupKeysObj : JsonObj → Bool
  | .nil => true
  | .cons _ v t => noDupKeys v && noDupKeysObj t
end

mutual
/-- Every object key in the value is free of the `.` separator. -/
def dotFreeKeys : JsonValue → Bool
  | .arr xs => dotFreeKeysArr xs
  | .obj kvs => dotFreeKeysObj kvs
  | _ => true

/-- `dotFreeKeys` over array elements. -/
def dotFreeKeysArr : JsonArr → Bool
  | .nil => true
  | .cons x t => dotFreeKeys x && dotFreeKeysArr t

/-- `dotFreeKeys` over object members. -/
def dotFreeKeysObj : JsonObj → Bool
  | .nil => true
  | .cons k v t => noDotKey k && dotFreeKeys v && dotFreeKeysObj t
end

mutual
/-- Every string scalar and object key in the value serializes with no
escapes. -/
def plainValue : JsonValue → Bool
  | .str s => plainString s
  | .arr xs => plainValueArr xs
  | .obj kvs => plainValueObj kvs
  | _ => true

/-- `plainValue` over array elements. -/
def plainValueArr : JsonArr → Bool
  | .nil => true
  | .cons x t => plainValue x && plainValueArr t

/-- `plainValue` over object members. -/
def plainValueObj : JsonObj → Bool
  | .nil => true
  | .cons k v t => plainString k && plainValue v && plainValueObj t
end

/-! ### Support definitions used by the proofs -/

/-- Does the input start with a decimal digit? -/
def digitStartB : List Char → Bool
  | [] => false
  | c :: _ => c.isDigit

/-- May the remainder legally follow a serialized number token (nothing
that would extend the token)? -/
def numSepB : List Char → Bool
  | [] => true
  | c :: _ => !(c.isDigit || c = '.' || c = 'e' || c = 'E')

/-- A character that can start a serialized JSON value: not whitespace and
not a closing delimiter. -/
def tokenHead (c : Char) : Bool := !isJsonWs c && c ≠ ']' && c ≠ '\x7d'

/-- Dot-joined path: the source's incremental `path + "." + key`, folded
over a structural position. -/
def dotJoinFrom (p : String) (pos : List String) : String :=
  pos.foldl (fun acc k => acc ++ "." ++ k) p

/-- The character-level suffix a structural position appends to its root
prefix: one `.`-prefixed block per segment. -/
def dotBlocks (pos : List (List Char)) : List Char :=
  (pos.map (fun k => '.' :: k)).flatten

/-! ## Lemmas -/

/-! ### Mutual induction over the value shape -/

/-- Simultaneous induction over `JsonValue`, `JsonArr` and `JsonObj`. -/
theorem JsonValue.mutualInd {P : JsonValue → Prop} {Q : JsonArr → Prop} {R : JsonObj → Prop}
    (hnull : P .null) (hbool : ∀ b, P (.bool b)) (hnum : ∀ m e, P (.num m e))
    (hstr : ∀ s, P (.str s))
    (harr : ∀ xs, Q xs → P (.arr xs)) (hobj : ∀ kvs, R kvs → P (.obj kvs))
    (hanil : Q .nil) (hacons : ∀ x t, P x → Q t → Q (.cons x t))
    (honil : R .nil) (hocons : ∀ k v t, P v → R t → R (.cons k v t)) :
    (∀ v, P v) ∧ (∀ xs, Q xs) ∧ (∀ kvs, R kvs) :=
  ⟨fun v => @JsonValue.rec P Q R hnull hbool hnum hstr harr hobj hanil hacons honil hocons v,
   fun xs => @JsonArr.rec P Q R hnull hbool hnum hstr harr hobj hanil hacons honil hocons xs,
   fun kvs => @JsonObj.rec P Q R hnull hbool hnum hstr harr hobj hanil hacons honil hocons kvs⟩

/-! ### Character facts -/

theorem char_ne_of_toNat {c d : Char} (h : c.toNat ≠ d.toNat) : c ≠ d :=
  fun e => h (congrArg Char.toNat e)

theorem isDigit_toNat {c : Char} (h : c.isDigit = true) : 48 ≤ c.toNat ∧ c.toNat ≤ 57 := by
  simpa [Char.isDigit] using h

theorem isDigit_not_ws {c : Char} (h : c.isDigit = true) : isJsonWs c = false := by
  obtain ⟨h1, h2⟩ := isDigit_toNat h
  have hs : c ≠ ' ' := char_ne_of_toNat (by intro e; rw [show (' ').toNat = 32 from rfl] at e; omega)
  have hn : c ≠ '\n' := char_ne_of_toNat (by intro e; rw [show ('\n').toNat = 10 from rfl] at e; omega)
  have ht : c ≠ '\t' := char_ne_of_toNat (by intro e; rw [show ('\t').toNat = 9 from rfl] at e; omega)
  have hr : c ≠ '\r' := char_ne_of_toNat (by intro e; rw [show ('\r').toNat = 13 from rfl] at e; omega)
  simp [isJsonWs, hs, hn, ht, hr]

/-! ### Decimal digit lemmas -/

theorem digitChar_isDigit {n : Nat} (h : n < 10) : (digitChar n).isDigit = true := by
  interval_cases n <;> decide

theorem digitVal_digitChar {n : Nat} (h : n < 10) : digitVal (digitChar n) = n := by
  interval_cases n <;> decide

theorem natDigitsAux_isDigit :
    ∀ fuel n, n ≤ fuel → ∀ c ∈ natDigitsAux fuel n, c.isDigit = true := by
  intro fuel
  induction fuel with
  | zero => intro n _ c hc; simp [natDigitsAux] at hc
  | succ fuel ih =>
    intro n hn c hc
    by_cases h10 : n < 10
    · simp [natDigitsAux, h10] at hc
      subst hc; exact digitChar_isDigit h10
    · simp [natDigitsAux, h10] at hc
      rcases hc with hc | hc
      · exact ih (n / 10)
          (by have := Nat.div_lt_self (show 0 < n by omega) (show (1:Nat) < 10 by norm_num)
              omega) c hc
      · subst hc; exact digitChar_isDigit (Nat.mod_lt _ (by omega))

theorem natDigits_isDigit (n : Nat) : ∀ c ∈ natDigits n, c.isDigit = true :=
  natDigitsAux_isDigit (n + 1) n (by omega)

theorem natDigitsAux_succ (fuel n : Nat) :
    natDigitsAux (fuel + 1) n =
      if n < 10 then [digitChar n]
      else natDigitsAux fuel (n / 10) ++ [digitChar (n % 10)] := rfl

theorem natDigitsAux_ne_nil (fuel n : Nat) : natDigitsAux (fuel + 1) n ≠ [] := by
  by_cases h10 : n < 10 <;> simp [natDigitsAux_succ, h10]

theorem natDigits_ne_nil (n : Nat) : natDigits n ≠ [] := natDigitsAux_ne_nil n n

theorem foldDigits_append (acc : Nat) (ds1 ds2 : List Char) :
    foldDigits acc (ds1 ++ ds2) = foldDigits (foldDigits acc ds1) ds2 := by
  simp [foldDigits, List.foldl_append]

theorem foldDigits_singleton (acc : Nat) (c : Char) :
    foldDigits acc [c] = acc * 10 + digitVal c := rfl

theorem natDigitsAux_fold :
    ∀ fuel n acc, n ≤ fuel →
      foldDigits acc (natDigitsAux (fuel + 1) n) =
        acc * 10 ^ (natDigitsAux (fuel + 1) n).length + n := by
  intro fuel
  induction fuel with
  | zero =>
    intro n acc hn
    have h0 : n = 0 := by omega
    subst h0
    simp [natDigitsAux_succ, foldDigits, digitVal, digitChar]
  | succ fuel ih =>
    intro n acc hn
    rw [natDigitsAux_succ]
    by_cases h10 : n < 10
    · rw [if_pos h10, foldDigits_singleton, digitVal_digitChar h10]
      simp
    · rw [if_neg h10]
      have hdiv : n / 10 ≤ fuel := by
        have := Nat.div_lt_self (show 0 < n by omega) (show (1:Nat) < 10 by norm_num)
        omega
      have hrec := ih (n / 10) acc hdiv
      have hmod : n % 10 < 10 := Nat.mod_lt _ (by omega)
      rw [foldDigits_append, foldDigits_singleton, hrec, digitVal_digitChar hmod,
        List.length_append, List.length_singleton, pow_succ]
      calc (acc * 10 ^ (natDigitsAux (fuel + 1) (n / 10)).length + n / 10) * 10 + n % 10
          = acc * (10 ^ (natDigitsAux (fuel + 1) (n / 10)).length * 10) +
              (10 * (n / 10) + n % 10) := by ring
        _ = acc * (10 ^ (natDigitsAux (fuel + 1) (n / 10)).length * 10) + n := by
              rw [Nat.div_add_mod]

theorem natDigits_fold (n acc : Nat) :
    foldDigits acc (natDigits n) = acc * 10 ^ (natDigits n).length + n :=
  natDigitsAux_fold n n acc (by omega)

theorem natDigits_fold_zero (n : Nat) : foldDigits 0 (natDigits n) = n := by
  simpa using natDigits_fold n 0

theorem natDigits_injective {a b : Nat} (h : natDigits a = natDigits b) : a = b := by
  have := natDigits_fold_zero a
  rw [h, natDigits_fold_zero] at this
  omega

theorem natDigitsAux_len_le :
    ∀ fuel n e, n ≤ fuel → n < 10 ^ e → 1 ≤ e → (natDigitsAux (fuel + 1) n).length ≤ e := by
  intro fuel
  induction fuel with
  | zero =>
    intro n e hn _ he
    have h0 : n = 0 := by omega
    subst h0
    simpa [natDigitsAux_succ] using he
  | succ fuel ih =>
    intro n e hn hlt he
    rw [natDigitsAux_succ]
    by_cases h10 : n < 10
    · simpa [h10] using he
    · rw [if_neg h10, List.length_append, List.length_singleton]
      have he2 : 2 ≤ e := by
        by_contra hcon
        have he1 : e = 1 := by omega
        subst he1
        simp at hlt
        omega
      have hdiv : n / 10 ≤ fuel := by
        have := Nat.div_lt_self (show 0 < n by omega) (show (1:Nat) < 10 by norm_num)
        omega
      have hdivlt : n / 10 < 10 ^ (e - 1) := by
        rw [Nat.div_lt_iff_lt_mul (by norm_num)]
        calc n < 10 ^ e := hlt
          _ = 10 ^ (e - 1) * 10 := by
            rw [← pow_succ]
            congr 1
            omega
      have := ih (n / 10) (e - 1) hdiv hdivlt (by omega)
      omega

theorem natDigits_len_le {n e : Nat} (hlt : n < 10 ^ e) (he : 1 ≤ e) :
    (natDigits n).length ≤ e :=
  natDigitsAux_len_le n n e (by omega) hlt he

/-! ### `takeDigits` and `padDigits` -/

theorem takeDigits_split :
    ∀ ds rest, (∀ c ∈ ds, c.isDigit = true) → digitStartB rest = false →
      takeDigits (ds ++ rest) = (ds, rest) := by
  intro ds
  induction ds with
  | nil =>
    intro rest _ hr
    cases rest with
    | nil => rfl
    | cons c r =>
      simp [digitStartB] at hr
      simp [takeDigits, hr]
  | cons c ds ih =>
    intro rest hds hr
    have hc : c.isDigit = true := hds c (by simp)
    have := ih rest (fun d hd => hds d (by simp [hd])) hr
    simp [takeDigits, hc, this]

theorem padDigits_length {e : Nat} {ds : List Char} (h : ds.length ≤ e) :
    (padDigits e ds).length = e := by
  simp [padDigits]
  omega

theorem padDigits_isDigit {e : Nat} {ds : List Char} (h : ∀ c ∈ ds, c.isDigit = true) :
    ∀ c ∈ padDigits e ds, c.isDigit = true := by
  intro c hc
  simp [padDigits] at hc
  rcases hc with ⟨_, hc⟩ | hc
  · subst hc; decide
  · exact h c hc

theorem foldDigits_replicate_zero (k : Nat) (ds : List Char) :
    foldDigits 0 (List.replicate k '0' ++ ds) = foldDigits 0 ds := by
  induction k with
  | zero => simp
  | succ k ih =>
    rw [List.replicate_succ, List.cons_append]
    show foldDigits (0 * 10 + digitVal '0') _ = _
    simpa [digitVal] using ih

theorem foldDigits_padDigits (e : Nat) (ds : List Char) :
    foldDigits 0 (padDigits e ds) = foldDigits 0 ds :=
  foldDigits_replicate_zero _ ds

/-! ### `skipWs` -/

theorem skipWs_not_ws {c : Char} (h : isJsonWs c = false) (l : List Char) :
    skipWs (c :: l) = c :: l := by
  simp [skipWs, h]

theorem skipWs_ws_front :
    ∀ pre l, (∀ c ∈ pre, isJsonWs c = true) → skipWs (pre ++ l) = skipWs l := by
  intro pre
  induction pre with
  | nil => intro l _; rfl
  | cons c p ih =>
    intro l h
    have hc : isJsonWs c = true := h c (by simp)
    rw [List.cons_append]
    show skipWs (c :: (p ++ l)) = skipWs l
    rw [show skipWs (c :: (p ++ l)) = skipWs (p ++ l) by simp [skipWs, hc]]
    exact ih l (fun d hd => h d (by simp [hd]))

theorem indentChars_ws (d : Nat) : ∀ c ∈ indentChars d, isJsonWs c = true := by
  intro c hc
  simp [indentChars] at hc
  obtain ⟨_, hc⟩ := hc
  subst hc
  decide

theorem skipWs_newline_indent (d : Nat) (l : List Char) :
    skipWs ('\n' :: (indentChars d ++ l)) = skipWs l := by
  rw [show skipWs ('\n' :: (indentChars d ++ l)) = skipWs (indentChars d ++ l) by
    simp [skipWs, isJsonWs]]
  exact skipWs_ws_front _ l (indentChars_ws d)

/-! ### String-literal round trip -/

theorem hexVal_hexDigitChar {n : Nat} (h : n < 16) : hexVal (hexDigitChar n) = some n := by
  interval_cases n <;> decide

theorem escapeList_cons (c : Char) (s : List Char) :
    escapeList (c :: s) = escapeChar c ++ escapeList s := rfl



theorem parseStrBody_cons (c : Char) (rest : List Char) :
    parseStrBody (c :: rest) =
      if c = '"' then some ([], rest)
      else if c = '\\' then
        match rest with
        | [] => none
        | e :: rest2 =>
          if e = 'u' then
            match rest2 with
            | h1 :: h2 :: h3 :: h4 :: rest3 =>
              match hexVal h1, hexVal h2, hexVal h3, hexVal h4 with
              | some a, some b, some c2, some d =>
                match parseStrBody rest3 with
                | some (s, r) => some (Char.ofNat (((a * 16 + b) * 16 + c2) * 16 + d) :: s, r)
                | none => none
              | _, _, _, _ => none
            | _ => none
          else
            match unescapeChar e with
            | some ch =>
              match parseStrBody rest2 with
              | some (s, r) => some (ch :: s, r)
              | none => none
            | none => none
      else if c.toNat < 32 then none
      else
        match parseStrBody rest with
        | some (s, r) => some (c :: s, r)
        | none => none := by
  rw [parseStrBody.eq_def]

theorem parseStrBody_escape :
    ∀ s rest, parseStrBody (escapeList s ++ '"' :: rest) = some (s, rest) := by
  intro s
  induction s with
  | nil => intro rest; simp [escapeList, parseStrBody_cons]
  | cons c s ih =>
    intro rest
    rw [escapeList_cons, List.append_assoc]
    by_cases h1 : c = '"'
    · subst h1
      simp [escapeChar, parseStrBody_cons, unescapeChar, ih]
    · by_cases h2 : c = '\\'
      · subst h2
        simp [escapeChar, parseStrBody_cons, unescapeChar, ih]
      · by_cases h3 : c = Char.ofNat 8
        · subst h3
          simp [escapeChar, parseStrBody_cons, unescapeChar, ih]
        · by_cases h4 : c = Char.ofNat 12
          · subst h4
            simp [escapeChar, parseStrBody_cons, unescapeChar, ih]
          · by_cases h5 : c = '\n'
            · subst h5
              simp [escapeChar, parseStrBody_cons, unescapeChar, ih]
            · by_cases h6 : c = '\r'
              · subst h6
                simp [escapeChar, parseStrBody_cons, unescapeChar, ih]
              · by_cases h7 : c = '\t'
                · subst h7
                  simp [escapeChar, parseStrBody_cons, unescapeChar, ih]
                · by_cases h8 : c.toNat < 32
                  · rw [show escapeChar c =
                        ['\\', 'u', '0', '0', hexDigitChar (c.toNat / 16),
                          hexDigitChar (c.toNat % 16)] by
                      simp [escapeChar, h1, h2, h3, h4, h5, h6, h7, h8]]
                    simp only [List.cons_append, List.nil_append]
                    rw [parseStrBody_cons]
                    simp only [hexVal_hexDigitChar (show c.toNat / 16 < 16 by omega),
                      hexVal_hexDigitChar (show c.toNat % 16 < 16 by omega)]
                    simp [ih]
                    rw [show hexVal '0' = some 0 from rfl]
                    show some (Char.ofNat (((0 * 16 + 0) * 16 + c.toNat / 16) * 16 +
                      c.toNat % 16) :: s, rest) = _
                    have hchar : ((0 * 16 + 0) * 16 + c.toNat / 16) * 16 + c.toNat % 16
                        = c.toNat := by
                      have := Nat.div_add_mod c.toNat 16
                      omega
                    rw [hchar, Char.ofNat_toNat]
                  · rw [show escapeChar c = [c] by
                      simp [escapeChar, h1, h2, h3, h4, h5, h6, h7, h8]]
                    simp only [List.cons_append, List.nil_append]
                    rw [parseStrBody_cons, if_neg h1, if_neg h2, if_neg h8, ih]

/-! ### Number round trip -/

theorem numSepB_digitStart {rest : List Char} (h : numSepB rest = true) :
    digitStartB rest = false := by
  cases rest with
  | nil => rfl
  | cons c r =>
    simp [numSepB] at h
    simp [digitStartB, h.1]

theorem serNumCore_head (n e : Nat) :
    ∃ c r, serNumCore n e = c :: r ∧ c.isDigit = true := by
  by_cases he : e = 0
  · subst he
    rw [show serNumCore n 0 = natDigits n by simp [serNumCore]]
    obtain ⟨c, r, hc⟩ := List.exists_cons_of_ne_nil (natDigits_ne_nil n)
    exact ⟨c, r, hc, natDigits_isDigit n c (by rw [hc]; simp)⟩
  · rw [show serNumCore n e =
        natDigits (n / 10 ^ e) ++ '.' :: padDigits e (natDigits (n % 10 ^ e)) by
      simp [serNumCore, he]]
    obtain ⟨c, r, hc⟩ := List.exists_cons_of_ne_nil (natDigits_ne_nil (n / 10 ^ e))
    refine ⟨c, r ++ '.' :: padDigits e (natDigits (n % 10 ^ e)), ?_, ?_⟩
    · rw [hc]; rfl
    · exact natDigits_isDigit _ c (by rw [hc]; simp)

theorem list_isEmpty_false_of_ne_nil {α : Type} {l : List α} (h : l ≠ []) :
    l.isEmpty = false := by
  cases l with
  | nil => exact absurd rfl h
  | cons a t => rfl

theorem parseNumAbs_serNumCore (neg : Bool) (n e : Nat) (rest : List Char)
    (hsep : numSepB rest = true) :
    parseNumAbs neg (serNumCore n e ++ rest) =
      some (.num (if neg then -(n : Int) else (n : Int)) e, rest) := by
  have hds := numSepB_digitStart hsep
  by_cases he : e = 0
  · subst he
    rw [show serNumCore n 0 = natDigits n by simp [serNumCore]]
    simp only [parseNumAbs]
    rw [takeDigits_split (natDigits n) rest (natDigits_isDigit n) hds]
    simp only [list_isEmpty_false_of_ne_nil (natDigits_ne_nil n), Bool.false_eq_true,
      if_false, natDigits_fold_zero]
    cases rest with
    | nil => simp [parseExpPart, mkNum, foldDigits]
    | cons c r =>
      simp only [numSepB, Bool.not_eq_true'] at hsep
      have hdot : ¬ c = '.' := by
        intro he2
        subst he2
        simp at hsep
      have hee : ¬ (c = 'e' ∨ c = 'E') := by
        intro hor
        rcases hor with hor | hor <;> (subst hor; simp at hsep)
      simp only [if_neg hdot, parseExpPart, if_neg hee]
      simp [mkNum, foldDigits]
  · rw [show serNumCore n e =
        natDigits (n / 10 ^ e) ++ '.' :: padDigits e (natDigits (n % 10 ^ e)) by
      simp [serNumCore, he]]
    rw [List.append_assoc, List.cons_append]
    simp only [parseNumAbs]
    rw [takeDigits_split (natDigits (n / 10 ^ e))
      ('.' :: (padDigits e (natDigits (n % 10 ^ e)) ++ rest))
      (natDigits_isDigit _) (by simp [digitStartB])]
    simp only [list_isEmpty_false_of_ne_nil (natDigits_ne_nil _), Bool.false_eq_true,
      if_false, natDigits_fold_zero]
    have hlen : (natDigits (n % 10 ^ e)).length ≤ e :=
      natDigits_len_le (Nat.mod_lt _ (by positivity)) (by omega)
    have hpadlen : (padDigits e (natDigits (n % 10 ^ e))).length = e := padDigits_length hlen
    have hpadne : padDigits e (natDigits (n % 10 ^ e)) ≠ [] := by
      intro hnil
      rw [hnil] at hpadlen
      simp at hpadlen
      omega
    rw [takeDigits_split (padDigits e (natDigits (n % 10 ^ e))) rest
      (padDigits_isDigit (natDigits_isDigit _)) hds]
    simp only [list_isEmpty_false_of_ne_nil hpadne, Bool.false_eq_true, if_false]
    have hfold : foldDigits 0 (padDigits e (natDigits (n % 10 ^ e))) = n % 10 ^ e := by
      rw [foldDigits_padDigits, natDigits_fold_zero]
    have hdm : ((n : Int) / 10 ^ e) * 10 ^ e + (n : Int) % 10 ^ e = (n : Int) := by
      have h := Int.ediv_add_emod (n : Int) (10 ^ e)
      linarith [mul_comm ((n : Int) / 10 ^ e) ((10 : Int) ^ e)]
    cases rest with
    | nil =>
      simp only [parseExpPart]
      simp [mkNum, hfold, hpadlen]
      rw [if_neg he]
      congr 1
      cases neg with
      | true => simp; linarith [hdm]
      | false => simp; linarith [hdm]
    | cons c r =>
      simp only [numSepB, Bool.not_eq_true'] at hsep
      have hee : ¬ (c = 'e' ∨ c = 'E') := by
        intro hor
        rcases hor with hor | hor <;> (subst hor; simp at hsep)
      simp only [parseExpPart, if_neg hee]
      simp [mkNum, hfold, hpadlen]
      rw [if_neg he]
      congr 1
      cases neg with
      | true => simp; linarith [hdm]
      | false => simp; linarith [hdm]

theorem isDigit_ne_dash {c : Char} (h : c.isDigit = true) : ¬ c = '-' := by
  obtain ⟨h1, h2⟩ := isDigit_toNat h
  exact char_ne_of_toNat (by intro hc; rw [show ('-').toNat = 45 from rfl] at hc; omega)

theorem parseNumber_serNum (m : Int) (e : Nat) (rest : List Char)
    (hsep : numSepB rest = true) :
    parseNumber (serNum m e ++ rest) = some (.num m e, rest) := by
  by_cases hm : m < 0
  · rw [show serNum m e = '-' :: serNumCore m.natAbs e by simp [serNum, hm],
      List.cons_append]
    rw [show parseNumber ('-' :: (serNumCore m.natAbs e ++ rest)) =
      parseNumAbs true (serNumCore m.natAbs e ++ rest) from rfl]
    rw [parseNumAbs_serNumCore true m.natAbs e rest hsep]
    have hab : -(m.natAbs : Int) = m := by omega
    rw [if_pos rfl, hab]
  · rw [show serNum m e = serNumCore m.natAbs e by simp [serNum, hm]]
    obtain ⟨c, r, hc, hcd⟩ := serNumCore_head m.natAbs e
    rw [hc, List.cons_append]
    rw [show parseNumber (c :: (r ++ rest)) =
        (if c = '-' then parseNumAbs true (r ++ rest)
          else parseNumAbs false (c :: (r ++ rest))) from rfl]
    rw [if_neg (isDigit_ne_dash hcd), ← List.cons_append, ← hc]
    rw [parseNumAbs_serNumCore false m.natAbs e rest hsep]
    have hab : (m.natAbs : Int) = m := by omega
    simp only [Bool.false_eq_true, if_false]
    rw [hab]

/-! ### The value round trip, gapless serializer -/

theorem parseFuel_pos : ∀ v : JsonValue, 1 ≤ parseFuel v := by
  intro v
  cases v <;> simp [parseFuel]

theorem tokenHead_of_digit {c : Char} (h : c.isDigit = true) : tokenHead c = true := by
  obtain ⟨h1, h2⟩ := isDigit_toNat h
  have hrb : ¬ c = ']' :=
    char_ne_of_toNat (by intro e; rw [show (']').toNat = 93 from rfl] at e; omega)
  have hcb : ¬ c = '\x7d' :=
    char_ne_of_toNat (by intro e; rw [show ('\x7d').toNat = 125 from rfl] at e; omega)
  simp [tokenHead, isDigit_not_ws h, hrb, hcb]

theorem tokenHead_parts {c : Char} (h : tokenHead c = true) :
    isJsonWs c = false ∧ ¬ c = ']' ∧ ¬ c = '\x7d' := by
  rw [tokenHead, Bool.and_eq_true, Bool.and_eq_true] at h
  obtain ⟨⟨hw, hb⟩, hc⟩ := h
  exact ⟨by simpa using hw, of_decide_eq_true hb, of_decide_eq_true hc⟩

theorem tokenHead_not_ws {c : Char} (h : tokenHead c = true) : isJsonWs c = false :=
  (tokenHead_parts h).1

theorem tokenHead_ne_rbracket {c : Char} (h : tokenHead c = true) : ¬ c = ']' :=
  (tokenHead_parts h).2.1

theorem tokenHead_ne_rbrace {c : Char} (h : tokenHead c = true) : ¬ c = '\x7d' :=
  (tokenHead_parts h).2.2

theorem serNum_head (m : Int) (e : Nat) :
    ∃ c r, serNum m e = c :: r ∧ tokenHead c = true := by
  by_cases hm : m < 0
  · exact ⟨'-', serNumCore m.natAbs e, by simp [serNum, hm], by decide⟩
  · obtain ⟨c, r, hc, hcd⟩ := serNumCore_head m.natAbs e
    exact ⟨c, r, by simp [serNum, hm, hc], tokenHead_of_digit hcd⟩

theorem jsonStringifyMinL_head (v : JsonValue) :
    ∃ c r, jsonStringifyMinL v = c :: r ∧ tokenHead c = true := by
  cases v with
  | null => exact ⟨'n', _, rfl, by decide⟩
  | bool b =>
    cases b with
    | false => exact ⟨'f', _, rfl, by decide⟩
    | true => exact ⟨'t', _, rfl, by decide⟩
  | num m e =>
    obtain ⟨c, r, hc, hth⟩ := serNum_head m e
    exact ⟨c, r, by simp [jsonStringifyMinL, hc], hth⟩
  | str s => exact ⟨'"', _, rfl, by decide⟩
  | arr xs => exact ⟨'[', minElems xs ++ [']'], rfl, by decide⟩
  | obj kvs => exact ⟨'\x7b', minMems kvs ++ ['\x7d'], rfl, by decide⟩

theorem parseVal_succ (fuel : Nat) (s : List Char) :
    parseVal (fuel + 1) s =
      (match skipWs s with
      | [] => none
      | c :: r =>
        if c = 'n' then
          match expectChars "ull".data r with
          | some r2 => some (.null, r2)
          | none => none
        else if c = 't' then
          match expectChars "rue".data r with
          | some r2 => some (.bool true, r2)
          | none => none
        else if c = 'f' then
          match expectChars "alse".data r with
          | some r2 => some (.bool false, r2)
          | none => none
        else if c = '"' then
          match parseStrBody r with
          | some (cs, r2) => some (.str ⟨cs⟩, r2)
          | none => none
        else if c = '[' then
          match skipWs r with
          | [] => none
          | c2 :: r2 => if c2 = ']' then some (.arr .nil, r2) else parseElems fuel (c2 :: r2)
        else if c = '\x7b' then
          match skipWs r with
          | [] => none
          | c2 :: r2 => if c2 = '\x7d' then some (.obj .nil, r2) else parseMems fuel (c2 :: r2)
        else if c.isDigit || c = '-' then parseNumber (c :: r)
        else none) := rfl

theorem parseVal_digit (fuel : Nat) {c : Char} (h : c.isDigit = true) (r : List Char) :
    parseVal (fuel + 1) (c :: r) = parseNumber (c :: r) := by
  rw [parseVal_succ, skipWs_not_ws (isDigit_not_ws h)]
  obtain ⟨h1, h2⟩ := isDigit_toNat h
  have hn : ¬ c = 'n' :=
    char_ne_of_toNat (by intro e; rw [show ('n').toNat = 110 from rfl] at e; omega)
  have ht : ¬ c = 't' :=
    char_ne_of_toNat (by intro e; rw [show ('t').toNat = 116 from rfl] at e; omega)
  have hf : ¬ c = 'f' :=
    char_ne_of_toNat (by intro e; rw [show ('f').toNat = 102 from rfl] at e; omega)
  have hq : ¬ c = '"' :=
    char_ne_of_toNat (by intro e; rw [show ('"').toNat = 34 from rfl] at e; omega)
  have hlb : ¬ c = '[' :=
    char_ne_of_toNat (by intro e; rw [show ('[').toNat = 91 from rfl] at e; omega)
  have hcb : ¬ c = '\x7b' :=
    char_ne_of_toNat (by intro e; rw [show ('\x7b').toNat = 123 from rfl] at e; omega)
  simp only [if_neg hn, if_neg ht, if_neg hf, if_neg hq, if_neg hlb, if_neg hcb, h,
    Bool.true_or, if_pos]

theorem parseElems_succ (fuel : Nat) (s : List Char) :
    parseElems (fuel + 1) s =
      (match parseVal fuel s with
      | none => none
      | some (v, r) =>
        match skipWs r with
        | [] => none
        | c :: r2 =>
          if c = ',' then
            match parseElems fuel r2 with
            | some (.arr vs, r3) => some (.arr (.cons v vs), r3)
            | _ => none
          else if c = ']' then some (.arr (.cons v .nil), r2)
          else none) := rfl

theorem parseMems_succ (fuel : Nat) (s : List Char) :
    parseMems (fuel + 1) s =
      (match skipWs s with
      | [] => none
      | c :: r =>
        if c = '"' then
          match parseStrBody r with
          | none => none
          | some (kcs, r2) =>
            match skipWs r2 with
            | [] => none
            | c2 :: r3 =>
              if c2 = ':' then
                match parseVal fuel r3 with
                | none => none
                | some (v, r4) =>
                  match skipWs r4 with
                  | [] => none
                  | c3 :: r5 =>
                    if c3 = ',' then
                      match parseMems fuel r5 with
                      | some (.obj o, r6) => some (.obj (consMember ⟨kcs⟩ v o), r6)
                      | _ => none
                    else if c3 = '\x7d' then some (.obj (.cons ⟨kcs⟩ v .nil), r5)
                    else none
              else none
        else none) := rfl

theorem minElems_head (x : JsonValue) (t : JsonArr) :
    ∃ c r, minElems (.cons x t) = c :: r ∧ tokenHead c = true := by
  obtain ⟨c, r, hc, hth⟩ := jsonStringifyMinL_head x
  cases t with
  | nil => exact ⟨c, r, by simp [minElems, hc], hth⟩
  | cons y t2 => exact ⟨c, r ++ ',' :: minElems (.cons y t2), by simp [minElems, hc], hth⟩

theorem minMems_eq_cons (k : String) (v : JsonValue) (t : JsonObj) :
    ∃ r, minMems (.cons k v t) = '"' :: r := by
  cases t with
  | nil => exact ⟨escapeList k.data ++ '"' :: ':' :: jsonStringifyMinL v, by
      simp [minMems, quoteString]⟩
  | cons k2 v2 t2 => exact ⟨escapeList k.data ++ '"' :: ':' :: (jsonStringifyMinL v ++
      ',' :: minMems (.cons k2 v2 t2)), by simp [minMems, quoteString]⟩

theorem getVal?_eq_none : ∀ (t : JsonObj) (k : String), k ∉ t.keyList → t.getVal? k = none := by
  obtain ⟨-, -, h⟩ := @JsonValue.mutualInd (fun _ => True) (fun _ => True)
    (fun t => ∀ k, k ∉ t.keyList → t.getVal? k = none)
    trivial (fun _ => trivial) (fun _ _ => trivial) (fun _ => trivial)
    (fun _ _ => trivial) (fun _ _ => trivial) trivial (fun _ _ _ _ => trivial)
    (fun k _ => rfl)
    (fun k2 v2 t2 _ ih => by
      intro k hk
      simp [JsonObj.keyList] at hk
      simp [JsonObj.getVal?, hk.1, ih k hk.2])
  exact h

theorem consMember_not_mem {k : String} (v : JsonValue) {t : JsonObj}
    (h : k ∉ t.keyList) : consMember k v t = .cons k v t := by
  simp [consMember, getVal?_eq_none t k h]

theorem parseMin_round : ∀ fuel : Nat,
    (∀ (v : JsonValue) (rest : List Char), parseFuel v ≤ fuel → noDupKeys v = true →
      numSepB rest = true →
      parseVal fuel (jsonStringifyMinL v ++ rest) = some (v, rest)) ∧
    (∀ (x : JsonValue) (t : JsonArr) (rest : List Char),
      parseFuelElems (.cons x t) ≤ fuel → noDupKeysArr (.cons x t) = true →
      parseElems fuel (minElems (.cons x t) ++ ']' :: rest) = some (.arr (.cons x t), rest)) ∧
    (∀ (k : String) (v : JsonValue) (t : JsonObj) (rest : List Char),
      parseFuelMems (.cons k v t) ≤ fuel →
      (decide (JsonObj.keyList (.cons k v t)).Nodup && noDupKeysObj (.cons k v t)) = true →
      parseMems fuel (minMems (.cons k v t) ++ '\x7d' :: rest) =
        some (.obj (.cons k v t), rest)) := by
  intro fuel
  induction fuel with
  | zero =>
    refine ⟨?_, ?_, ?_⟩
    · intro v rest hf _ _
      have := parseFuel_pos v
      omega
    · intro x t rest hf _
      simp [parseFuelElems] at hf
    · intro k v t rest hf _
      simp [parseFuelMems] at hf
  | succ fuel ih =>
    obtain ⟨ih1, ih2, ih3⟩ := ih
    refine ⟨?_, ?_, ?_⟩
    · -- parseVal on a serialized value
      intro v rest hf hnd hsep
      cases v with
      | null => rfl
      | bool b => cases b <;> rfl
      | num m e =>
        by_cases hm : m < 0
        · rw [show jsonStringifyMinL (.num m e) ++ rest =
              '-' :: (serNumCore m.natAbs e ++ rest) by simp [jsonStringifyMinL, serNum, hm]]
          rw [show parseVal (fuel + 1) ('-' :: (serNumCore m.natAbs e ++ rest)) =
              parseNumber ('-' :: (serNumCore m.natAbs e ++ rest)) from rfl]
          rw [show ('-' :: (serNumCore m.natAbs e ++ rest)) = serNum m e ++ rest by
            simp [serNum, hm]]
          exact parseNumber_serNum m e rest hsep
        · obtain ⟨c, r, hc, hcd⟩ := serNumCore_head m.natAbs e
          have hser : serNum m e = c :: r := by simp [serNum, hm, hc]
          rw [show jsonStringifyMinL (.num m e) = serNum m e from rfl, hser, List.cons_append,
            parseVal_digit fuel hcd]
          rw [← List.cons_append, ← hser]
          exact parseNumber_serNum m e rest hsep
      | str s =>
        rw [show jsonStringifyMinL (.str s) ++ rest =
            '"' :: (escapeList s.data ++ '"' :: rest) by simp [jsonStringifyMinL, quoteString]]
        rw [show parseVal (fuel + 1) ('"' :: (escapeList s.data ++ '"' :: rest)) =
            (match parseStrBody (escapeList s.data ++ '"' :: rest) with
              | some (cs, r2) => some (.str ⟨cs⟩, r2)
              | none => none) from rfl]
        rw [parseStrBody_escape]
      | arr xs =>
        cases xs with
        | nil => rfl
        | cons x t =>
          obtain ⟨c, r, hme, hth⟩ := minElems_head x t
          rw [show jsonStringifyMinL (.arr (.cons x t)) ++ rest =
              '[' :: (minElems (.cons x t) ++ ']' :: rest) by
            simp [jsonStringifyMinL]]
          rw [show parseVal (fuel + 1) ('[' :: (minElems (.cons x t) ++ ']' :: rest)) =
              (match skipWs (minElems (.cons x t) ++ ']' :: rest) with
                | [] => none
                | c2 :: r2 =>
                  if c2 = ']' then some (.arr .nil, r2)
                  else parseElems fuel (c2 :: r2)) from rfl]
          rw [hme, List.cons_append, skipWs_not_ws (tokenHead_not_ws hth)]
          simp only [if_neg (tokenHead_ne_rbracket hth)]
          rw [← List.cons_append, ← hme]
          refine ih2 x t rest ?_ ?_
          · simp [parseFuel] at hf
            omega
          · simpa [noDupKeys] using hnd
      | obj kvs =>
        cases kvs with
        | nil => rfl
        | cons k v t =>
          obtain ⟨r, hmm⟩ := minMems_eq_cons k v t
          rw [show jsonStringifyMinL (.obj (.cons k v t)) ++ rest =
              '\x7b' :: (minMems (.cons k v t) ++ '\x7d' :: rest) by
            simp [jsonStringifyMinL]]
          rw [show parseVal (fuel + 1) ('\x7b' :: (minMems (.cons k v t) ++ '\x7d' :: rest)) =
              (match skipWs (minMems (.cons k v t) ++ '\x7d' :: rest) with
                | [] => none
                | c2 :: r2 =>
                  if c2 = '\x7d' then some (.obj .nil, r2)
                  else parseMems fuel (c2 :: r2)) from rfl]
          rw [hmm, List.cons_append, skipWs_not_ws (by decide)]
          simp only [if_neg (show ¬ '"' = '\x7d' by decide)]
          rw [← List.cons_append, ← hmm]
          refine ih3 k v t rest ?_ ?_
          · simp [parseFuel] at hf
            omega
          · simpa [noDupKeys] using hnd
    · -- parseElems on serialized elements
      intro x t rest hf hnd
      have hbx : parseFuel x ≤ fuel := by
        simp [parseFuelElems] at hf
        have := parseFuel_pos x
        omega
      have hnx : noDupKeys x = true := by
        simp [noDupKeysArr, Bool.and_eq_true] at hnd
        exact hnd.1
      cases t with
      | nil =>
        rw [show minElems (.cons x .nil) ++ ']' :: rest =
            jsonStringifyMinL x ++ ']' :: rest by simp [minElems]]
        rw [parseElems_succ, ih1 x (']' :: rest) hbx hnx (by rfl)]
        rfl
      | cons y t2 =>
        rw [show minElems (.cons x (.cons y t2)) ++ ']' :: rest =
            jsonStringifyMinL x ++ ',' :: (minElems (.cons y t2) ++ ']' :: rest) by
          simp [minElems]]
        rw [parseElems_succ, ih1 x (',' :: (minElems (.cons y t2) ++ ']' :: rest)) hbx hnx
          (by rfl)]
        have hrec := ih2 y t2 rest
          (by simp [parseFuelElems] at hf ⊢; omega)
          (by simp [noDupKeysArr, Bool.and_eq_true] at hnd ⊢; exact hnd.2)
        simp only [skipWs_not_ws (show isJsonWs ',' = false by decide)]
        simp [hrec]
    · -- parseMems on serialized members
      intro k v t rest hf hnd
      have hbv : parseFuel v ≤ fuel := by
        simp [parseFuelMems] at hf
        have := parseFuel_pos v
        omega
      simp only [Bool.and_eq_true, decide_eq_true_eq] at hnd
      obtain ⟨hkeys, hvals⟩ := hnd
      have hnv : noDupKeys v = true := by
        simp [noDupKeysObj, Bool.and_eq_true] at hvals
        exact hvals.1
      cases t with
      | nil =>
        rw [show minMems (.cons k v .nil) ++ '\x7d' :: rest =
            '"' :: (escapeList k.data ++ '"' ::
              (':' :: (jsonStringifyMinL v ++ '\x7d' :: rest))) by
          simp [minMems, quoteString]]
        rw [parseMems_succ]
        rw [show skipWs ('"' :: (escapeList k.data ++ '"' ::
            (':' :: (jsonStringifyMinL v ++ '\x7d' :: rest)))) =
            '"' :: (escapeList k.data ++ '"' ::
              (':' :: (jsonStringifyMinL v ++ '\x7d' :: rest))) from rfl]
        simp only [if_pos rfl]
        rw [parseStrBody_escape k.data (':' :: (jsonStringifyMinL v ++ '\x7d' :: rest))]
        simp only [skipWs_not_ws (show isJsonWs ':' = false by decide), if_pos rfl]
        rw [ih1 v ('\x7d' :: rest) hbv hnv (by rfl)]
        rfl
      | cons k2 v2 t2 =>
        rw [show minMems (.cons k v (.cons k2 v2 t2)) ++ '\x7d' :: rest =
            '"' :: (escapeList k.data ++ '"' ::
              (':' :: (jsonStringifyMinL v ++
                ',' :: (minMems (.cons k2 v2 t2) ++ '\x7d' :: rest)))) by
          simp [minMems, quoteString]]
        rw [parseMems_succ]
        rw [show skipWs ('"' :: (escapeList k.data ++ '"' ::
            (':' :: (jsonStringifyMinL v ++
              ',' :: (minMems (.cons k2 v2 t2) ++ '\x7d' :: rest))))) =
            '"' :: (escapeList k.data ++ '"' ::
              (':' :: (jsonStringifyMinL v ++
                ',' :: (minMems (.cons k2 v2 t2) ++ '\x7d' :: rest)))) from rfl]
        simp only [if_pos rfl]
        rw [parseStrBody_escape k.data]
        simp only [skipWs_not_ws (show isJsonWs ':' = false by decide), if_pos rfl]
        rw [ih1 v (',' :: (minMems (.cons k2 v2 t2) ++ '\x7d' :: rest)) hbv hnv (by rfl)]
        simp only [skipWs_not_ws (show isJsonWs ',' = false by decide), if_pos rfl]
        have hrec := ih3 k2 v2 t2 rest
          (by simp [parseFuelMems] at hf ⊢; omega)
          (by
            simp only [Bool.and_eq_true, decide_eq_true_eq]
            constructor
            · simp [JsonObj.keyList] at hkeys ⊢
              exact hkeys.2
            · simp [noDupKeysObj, Bool.and_eq_true] at hvals ⊢
              exact hvals.2)
        rw [hrec]
        have hknotin : k ∉ (JsonObj.cons k2 v2 t2).keyList := by
          simp [JsonObj.keyList] at hkeys ⊢
          exact ⟨hkeys.1.1, hkeys.1.2⟩
        show some (JsonValue.obj (consMember k v (JsonObj.cons k2 v2 t2)), rest) =
          some (JsonValue.obj (JsonObj.cons k v (JsonObj.cons k2 v2 t2)), rest)
        rw [consMember_not_mem v hknotin]

/-! ### The value round trip, two-space-indent serializer -/

theorem ind2Elems_expand (x : JsonValue) (t : JsonArr) (d : Nat) :
    ind2Elems (.cons x t) d =
      '\n' :: (indentChars d ++ (jsonStringify2L x d ++ ind2Rest t d)) := by
  cases t with
  | nil => simp [ind2Elems, ind2Rest]
  | cons y t2 => simp [ind2Elems, ind2Rest]

theorem ind2Mems_expand (k : String) (v : JsonValue) (t : JsonObj) (d : Nat) :
    ind2Mems (.cons k v t) d =
      '\n' :: (indentChars d ++ (quoteString k ++ ':' :: ' ' ::
        (jsonStringify2L v d ++ ind2MemsRest t d))) := by
  cases t with
  | nil => simp [ind2Mems, ind2MemsRest]
  | cons k2 v2 t2 => simp [ind2Mems, ind2MemsRest]

theorem parseVal_ws_front (fuel : Nat) (pre s : List Char)
    (h : ∀ c ∈ pre, isJsonWs c = true) :
    parseVal (fuel + 1) (pre ++ s) = parseVal (fuel + 1) s := by
  rw [parseVal_succ, parseVal_succ, skipWs_ws_front pre s h]

theorem jsonStringify2L_head (v : JsonValue) (d : Nat) :
    ∃ c r, jsonStringify2L v d = c :: r ∧ tokenHead c = true := by
  cases v with
  | null => exact ⟨'n', _, rfl, by decide⟩
  | bool b =>
    cases b with
    | false => exact ⟨'f', _, rfl, by decide⟩
    | true => exact ⟨'t', _, rfl, by decide⟩
  | num m e =>
    obtain ⟨c, r, hc, hth⟩ := serNum_head m e
    exact ⟨c, r, by simp [jsonStringify2L, hc], hth⟩
  | str s => exact ⟨'"', _, rfl, by decide⟩
  | arr xs =>
    cases xs with
    | nil => exact ⟨'[', [']'], rfl, by decide⟩
    | cons x t =>
      exact ⟨'[', ind2Elems (.cons x t) (d + 1) ++ '\n' :: indentChars d ++ [']'], rfl,
        by decide⟩
  | obj kvs =>
    cases kvs with
    | nil => exact ⟨'\x7b', ['\x7d'], rfl, by decide⟩
    | cons k v t =>
      exact ⟨'\x7b', ind2Mems (.cons k v t) (d + 1) ++ '\n' :: indentChars d ++ ['\x7d'], rfl,
        by decide⟩

theorem parse2_round : ∀ fuel : Nat,
    (∀ (v : JsonValue) (d : Nat) (pre rest : List Char),
      (∀ c ∈ pre, isJsonWs c = true) → parseFuel v ≤ fuel → noDupKeys v = true →
      numSepB rest = true →
      parseVal fuel (pre ++ (jsonStringify2L v d ++ rest)) = some (v, rest)) ∧
    (∀ (x : JsonValue) (t : JsonArr) (d dc : Nat) (pre rest : List Char),
      (∀ c ∈ pre, isJsonWs c = true) →
      parseFuelElems (.cons x t) ≤ fuel → noDupKeysArr (.cons x t) = true →
      parseElems fuel (pre ++ (jsonStringify2L x d ++ (ind2Rest t d ++
        ('\n' :: (indentChars dc ++ ']' :: rest))))) = some (.arr (.cons x t), rest)) ∧
    (∀ (k : String) (v : JsonValue) (t : JsonObj) (d dc : Nat) (pre rest : List Char),
      (∀ c ∈ pre, isJsonWs c = true) →
      parseFuelMems (.cons k v t) ≤ fuel →
      (decide (JsonObj.keyList (.cons k v t)).Nodup && noDupKeysObj (.cons k v t)) = true →
      parseMems fuel (pre ++ (quoteString k ++ ':' :: ' ' :: (jsonStringify2L v d ++
        (ind2MemsRest t d ++ ('\n' :: (indentChars dc ++ '\x7d' :: rest)))))) =
        some (.obj (.cons k v t), rest)) := by
  intro fuel
  induction fuel with
  | zero =>
    refine ⟨?_, ?_, ?_⟩
    · intro v d pre rest _ hf _ _
      have := parseFuel_pos v
      omega
    · intro x t d dc pre rest _ hf _
      simp [parseFuelElems] at hf
    · intro k v t d dc pre rest _ hf _
      simp [parseFuelMems] at hf
  | succ fuel ih =>
    obtain ⟨ih1, ih2, ih3⟩ := ih
    refine ⟨?_, ?_, ?_⟩
    · intro v d pre rest hpre hf hnd hsep
      rw [parseVal_ws_front fuel pre _ hpre]
      cases v with
      | null => rfl
      | bool b => cases b <;> rfl
      | num m e =>
        by_cases hm : m < 0
        · rw [show jsonStringify2L (.num m e) d ++ rest =
              '-' :: (serNumCore m.natAbs e ++ rest) by simp [jsonStringify2L, serNum, hm]]
          rw [show parseVal (fuel + 1) ('-' :: (serNumCore m.natAbs e ++ rest)) =
              parseNumber ('-' :: (serNumCore m.natAbs e ++ rest)) from rfl]
          rw [show ('-' :: (serNumCore m.natAbs e ++ rest)) = serNum m e ++ rest by
            simp [serNum, hm]]
          exact parseNumber_serNum m e rest hsep
        · obtain ⟨c, r, hc, hcd⟩ := serNumCore_head m.natAbs e
          have hser : serNum m e = c :: r := by simp [serNum, hm, hc]
          rw [show jsonStringify2L (.num m e) d = serNum m e from rfl, hser, List.cons_append,
            parseVal_digit fuel hcd]
          rw [← List.cons_append, ← hser]
          exact parseNumber_serNum m e rest hsep
      | str s =>
        rw [show jsonStringify2L (.str s) d ++ rest =
            '"' :: (escapeList s.data ++ '"' :: rest) by simp [jsonStringify2L, quoteString]]
        rw [show parseVal (fuel + 1) ('"' :: (escapeList s.data ++ '"' :: rest)) =
            (match parseStrBody (escapeList s.data ++ '"' :: rest) with
              | some (cs, r2) => some (.str ⟨cs⟩, r2)
              | none => none) from rfl]
        rw [parseStrBody_escape]
      | arr xs =>
        cases xs with
        | nil => rfl
        | cons x t =>
          rw [show jsonStringify2L (.arr (.cons x t)) d ++ rest =
              '[' :: (ind2Elems (.cons x t) (d + 1) ++
                ('\n' :: (indentChars d ++ (']' :: rest)))) by
            simp [jsonStringify2L]]
          rw [show parseVal (fuel + 1) ('[' :: (ind2Elems (.cons x t) (d + 1) ++
                ('\n' :: (indentChars d ++ (']' :: rest))))) =
              (match skipWs (ind2Elems (.cons x t) (d + 1) ++
                ('\n' :: (indentChars d ++ (']' :: rest)))) with
                | [] => none
                | c2 :: r2 =>
                  if c2 = ']' then some (.arr .nil, r2)
                  else parseElems fuel (c2 :: r2)) from rfl]
          rw [ind2Elems_expand]
          rw [show ('\n' :: (indentChars (d + 1) ++
              (jsonStringify2L x (d + 1) ++ ind2Rest t (d + 1)))) ++
              ('\n' :: (indentChars d ++ (']' :: rest))) =
              '\n' :: (indentChars (d + 1) ++
              ((jsonStringify2L x (d + 1) ++ ind2Rest t (d + 1)) ++
              ('\n' :: (indentChars d ++ (']' :: rest))))) by simp]
          rw [skipWs_newline_indent]
          obtain ⟨c, r, hc, hth⟩ := jsonStringify2L_head x (d + 1)
          rw [show (jsonStringify2L x (d + 1) ++ ind2Rest t (d + 1)) ++
              ('\n' :: (indentChars d ++ (']' :: rest))) =
              jsonStringify2L x (d + 1) ++ (ind2Rest t (d + 1) ++
              ('\n' :: (indentChars d ++ (']' :: rest)))) by simp]
          rw [hc, List.cons_append, skipWs_not_ws (tokenHead_not_ws hth)]
          simp only [if_neg (tokenHead_ne_rbracket hth)]
          rw [← List.cons_append, ← hc]
          rw [show jsonStringify2L x (d + 1) ++ (ind2Rest t (d + 1) ++
              ('\n' :: (indentChars d ++ (']' :: rest)))) =
              [] ++ (jsonStringify2L x (d + 1) ++ (ind2Rest t (d + 1) ++
              ('\n' :: (indentChars d ++ (']' :: rest))))) by simp]
          refine ih2 x t (d + 1) d [] rest (by intro c2 hc2; simp at hc2) ?_ ?_
          · simp [parseFuel] at hf
            omega
          · simpa [noDupKeys] using hnd
      | obj kvs =>
        cases kvs with
        | nil => rfl
        | cons k v t =>
          rw [show jsonStringify2L (.obj (.cons k v t)) d ++ rest =
              '\x7b' :: (ind2Mems (.cons k v t) (d + 1) ++
                ('\n' :: (indentChars d ++ ('\x7d' :: rest)))) by
            simp [jsonStringify2L]]
          rw [show parseVal (fuel + 1) ('\x7b' :: (ind2Mems (.cons k v t) (d + 1) ++
                ('\n' :: (indentChars d ++ ('\x7d' :: rest))))) =
              (match skipWs (ind2Mems (.cons k v t) (d + 1) ++
                ('\n' :: (indentChars d ++ ('\x7d' :: rest)))) with
                | [] => none
                | c2 :: r2 =>
                  if c2 = '\x7d' then some (.obj .nil, r2)
                  else parseMems fuel (c2 :: r2)) from rfl]
          rw [ind2Mems_expand]
          rw [show ('\n' :: (indentChars (d + 1) ++ (quoteString k ++ ':' :: ' ' ::
              (jsonStringify2L v (d + 1) ++ ind2MemsRest t (d + 1))))) ++
              ('\n' :: (indentChars d ++ ('\x7d' :: rest))) =
              '\n' :: (indentChars (d + 1) ++ ((quoteString k ++ ':' :: ' ' ::
              (jsonStringify2L v (d + 1) ++ ind2MemsRest t (d + 1))) ++
              ('\n' :: (indentChars d ++ ('\x7d' :: rest))))) by simp]
          rw [skipWs_newline_indent]
          rw [show (quoteString k ++ ':' :: ' ' ::
              (jsonStringify2L v (d + 1) ++ ind2MemsRest t (d + 1))) ++
              ('\n' :: (indentChars d ++ ('\x7d' :: rest))) =
              '"' :: ((escapeList k.data ++ '"' :: ':' :: ' ' ::
              (jsonStringify2L v (d + 1) ++ ind2MemsRest t (d + 1))) ++
              ('\n' :: (indentChars d ++ ('\x7d' :: rest)))) by simp [quoteString]]
          rw [skipWs_not_ws (show isJsonWs '"' = false by decide)]
          simp only [if_neg (show ¬ '"' = '\x7d' by decide)]
          have hx : '"' :: ((escapeList k.data ++ '"' :: ':' :: ' ' ::
              (jsonStringify2L v (d + 1) ++ ind2MemsRest t (d + 1))) ++
              ('\n' :: (indentChars d ++ ('\x7d' :: rest)))) =
              [] ++ (quoteString k ++ ':' :: ' ' :: (jsonStringify2L v (d + 1) ++
              (ind2MemsRest t (d + 1) ++ ('\n' :: (indentChars d ++ '\x7d' :: rest))))) := by
            simp [quoteString]
          rw [hx]
          refine ih3 k v t (d + 1) d [] rest (by intro c2 hc2; simp at hc2) ?_ ?_
          · simp [parseFuel] at hf
            omega
          · simpa [noDupKeys] using hnd
    · intro x t d dc pre rest hpre hf hnd
      have hbx : parseFuel x ≤ fuel := by
        simp [parseFuelElems] at hf
        have := parseFuel_pos x
        omega
      have hnx : noDupKeys x = true := by
        simp [noDupKeysArr, Bool.and_eq_true] at hnd
        exact hnd.1
      cases t with
      | nil =>
        rw [parseElems_succ]
        rw [show ind2Rest JsonArr.nil d ++ ('\n' :: (indentChars dc ++ ']' :: rest)) =
            '\n' :: (indentChars dc ++ ']' :: rest) by simp [ind2Rest]]
        rw [ih1 x d pre ('\n' :: (indentChars dc ++ ']' :: rest)) hpre hbx hnx (by rfl)]
        have hsk : skipWs ('\n' :: (indentChars dc ++ ']' :: rest)) = ']' :: rest := by
          rw [show indentChars dc ++ ']' :: rest = indentChars dc ++ (']' :: rest) from rfl,
            skipWs_newline_indent, skipWs_not_ws (show isJsonWs ']' = false by decide)]
        simp only [hsk]
        simp
      | cons y t2 =>
        rw [parseElems_succ]
        rw [show ind2Rest (JsonArr.cons y t2) d ++ ('\n' :: (indentChars dc ++ ']' :: rest)) =
            ',' :: (ind2Elems (.cons y t2) d ++ ('\n' :: (indentChars dc ++ ']' :: rest)))
          by simp [ind2Rest]]
        rw [ih1 x d pre _ hpre hbx hnx (by rfl)]
        simp only [skipWs_not_ws (show isJsonWs ',' = false by decide)]
        rw [ind2Elems_expand]
        rw [show ('\n' :: (indentChars d ++ (jsonStringify2L y d ++ ind2Rest t2 d))) ++
            ('\n' :: (indentChars dc ++ ']' :: rest)) =
            ('\n' :: indentChars d) ++ (jsonStringify2L y d ++ (ind2Rest t2 d ++
            ('\n' :: (indentChars dc ++ ']' :: rest)))) by simp]
        have hrec := ih2 y t2 d dc ('\n' :: indentChars d) rest
          (by
            intro c2 hc2
            rcases List.mem_cons.mp hc2 with hc2 | hc2
            · subst hc2; decide
            · exact indentChars_ws d c2 hc2)
          (by simp [parseFuelElems] at hf ⊢; omega)
          (by simp [noDupKeysArr, Bool.and_eq_true] at hnd ⊢; exact hnd.2)
        rw [hrec]
        simp
    · intro k v t d dc pre rest hpre hf hnd
      have hbv : parseFuel v ≤ fuel := by
        simp [parseFuelMems] at hf
        have := parseFuel_pos v
        omega
      simp only [Bool.and_eq_true, decide_eq_true_eq] at hnd
      obtain ⟨hkeys, hvals⟩ := hnd
      have hnv : noDupKeys v = true := by
        simp [noDupKeysObj, Bool.and_eq_true] at hvals
        exact hvals.1
      rw [parseMems_succ]
      rw [skipWs_ws_front pre _ hpre]
      rw [show quoteString k ++ ':' :: ' ' :: (jsonStringify2L v d ++
          (ind2MemsRest t d ++ ('\n' :: (indentChars dc ++ '\x7d' :: rest)))) =
          '"' :: (escapeList k.data ++ '"' :: (':' :: ' ' :: (jsonStringify2L v d ++
          (ind2MemsRest t d ++ ('\n' :: (indentChars dc ++ '\x7d' :: rest)))))) by
        simp [quoteString]]
      rw [skipWs_not_ws (show isJsonWs '"' = false by decide)]
      simp only [if_pos rfl]
      rw [parseStrBody_escape k.data]
      simp only [skipWs_not_ws (show isJsonWs ':' = false by decide)]
      rw [show (' ' :: (jsonStringify2L v d ++
          (ind2MemsRest t d ++ ('\n' :: (indentChars dc ++ '\x7d' :: rest))))) =
          [' '] ++ (jsonStringify2L v d ++
          (ind2MemsRest t d ++ ('\n' :: (indentChars dc ++ '\x7d' :: rest)))) from rfl]
      cases t with
      | nil =>
        rw [show ind2MemsRest JsonObj.nil d ++ ('\n' :: (indentChars dc ++ '\x7d' :: rest)) =
            '\n' :: (indentChars dc ++ '\x7d' :: rest) by simp [ind2MemsRest]]
        rw [ih1 v d [' '] ('\n' :: (indentChars dc ++ '\x7d' :: rest))
          (by intro c2 hc2; simp at hc2; subst hc2; decide) hbv hnv (by rfl)]
        have hsk : skipWs ('\n' :: (indentChars dc ++ '\x7d' :: rest)) = '\x7d' :: rest := by
          rw [show indentChars dc ++ '\x7d' :: rest = indentChars dc ++ ('\x7d' :: rest)
            from rfl, skipWs_newline_indent,
            skipWs_not_ws (show isJsonWs '\x7d' = false by decide)]
        simp only [hsk]
        simp
      | cons k2 v2 t2 =>
        rw [show ind2MemsRest (JsonObj.cons k2 v2 t2) d ++
            ('\n' :: (indentChars dc ++ '\x7d' :: rest)) =
            ',' :: (ind2Mems (.cons k2 v2 t2) d ++
            ('\n' :: (indentChars dc ++ '\x7d' :: rest))) by simp [ind2MemsRest]]
        rw [ih1 v d [' '] _ (by intro c2 hc2; simp at hc2; subst hc2; decide) hbv hnv (by rfl)]
        simp only [skipWs_not_ws (show isJsonWs ',' = false by decide)]
        rw [ind2Mems_expand]
        rw [show ('\n' :: (indentChars d ++ (quoteString k2 ++ ':' :: ' ' ::
            (jsonStringify2L v2 d ++ ind2MemsRest t2 d)))) ++
            ('\n' :: (indentChars dc ++ '\x7d' :: rest)) =
            ('\n' :: indentChars d) ++ (quoteString k2 ++ ':' :: ' ' ::
            (jsonStringify2L v2 d ++ (ind2MemsRest t2 d ++
            ('\n' :: (indentChars dc ++ '\x7d' :: rest))))) by simp]
        have hrec := ih3 k2 v2 t2 d dc ('\n' :: indentChars d) rest
          (by
            intro c2 hc2
            rcases List.mem_cons.mp hc2 with hc2 | hc2
            · subst hc2; decide
            · exact indentChars_ws d c2 hc2)
          (by simp [parseFuelMems] at hf ⊢; omega)
          (by
            simp only [Bool.and_eq_true, decide_eq_true_eq]
            constructor
            · simp [JsonObj.keyList] at hkeys ⊢
              exact hkeys.2
            · simp [noDupKeysObj, Bool.and_eq_true] at hvals ⊢
              exact hvals.2)
        rw [hrec]
        have hknotin : k ∉ (JsonObj.cons k2 v2 t2).keyList := by
          simp [JsonObj.keyList] at hkeys ⊢
          exact ⟨hkeys.1.1, hkeys.1.2⟩
        show some (JsonValue.obj (consMember k v (JsonObj.cons k2 v2 t2)), rest) =
          some (JsonValue.obj (JsonObj.cons k v (JsonObj.cons k2 v2 t2)), rest)
        rw [consMember_not_mem v hknotin]

/-! ### Fuel bounds and the top-level round trips -/

theorem parseFuel_le_min :
    (∀ v : JsonValue, parseFuel v ≤ (jsonStringifyMinL v).length) ∧
    (∀ xs : JsonArr, parseFuelElems xs ≤ (minElems xs).length + 1) ∧
    (∀ kvs : JsonObj, parseFuelMems kvs ≤ (minMems kvs).length + 1) := by
  refine @JsonValue.mutualInd
    (fun v => parseFuel v ≤ (jsonStringifyMinL v).length)
    (fun xs => parseFuelElems xs ≤ (minElems xs).length + 1)
    (fun kvs => parseFuelMems kvs ≤ (minMems kvs).length + 1)
    ?_ ?_ ?_ ?_ ?_ ?_ ?_ ?_ ?_ ?_
  · decide
  · intro b; cases b <;> decide
  · intro m e
    obtain ⟨c, r, hc, _⟩ := serNum_head m e
    simp [parseFuel, jsonStringifyMinL, hc]
  · intro s
    simp [parseFuel, jsonStringifyMinL, quoteString]
  · intro xs ih
    simp [parseFuel, jsonStringifyMinL]
    omega
  · intro kvs ih
    simp [parseFuel, jsonStringifyMinL]
    omega
  · decide
  · intro x t ihx iht
    cases t with
    | nil => simp [parseFuelElems, minElems, parseFuel] at ihx ⊢; omega
    | cons y t2 =>
      simp [parseFuelElems, minElems] at iht ⊢
      omega
  · decide
  · intro k v t ihv iht
    cases t with
    | nil =>
      simp [parseFuelMems, minMems, quoteString] at ihv ⊢
      omega
    | cons k2 v2 t2 =>
      simp [parseFuelMems, minMems, quoteString] at iht ⊢
      omega

theorem parseFuel_le_ind2 :
    (∀ v : JsonValue, ∀ d, parseFuel v ≤ (jsonStringify2L v d).length) ∧
    (∀ xs : JsonArr, ∀ d, parseFuelElems xs ≤ (ind2Elems xs d).length + 1) ∧
    (∀ kvs : JsonObj, ∀ d, parseFuelMems kvs ≤ (ind2Mems kvs d).length + 1) := by
  refine @JsonValue.mutualInd
    (fun v => ∀ d, parseFuel v ≤ (jsonStringify2L v d).length)
    (fun xs => ∀ d, parseFuelElems xs ≤ (ind2Elems xs d).length + 1)
    (fun kvs => ∀ d, parseFuelMems kvs ≤ (ind2Mems kvs d).length + 1)
    ?_ ?_ ?_ ?_ ?_ ?_ ?_ ?_ ?_ ?_
  · intro d; simp [parseFuel, jsonStringify2L]
  · intro b; cases b <;> (intro d; simp [parseFuel, jsonStringify2L])
  · intro m e d
    obtain ⟨c, r, hc, _⟩ := serNum_head m e
    simp [parseFuel, jsonStringify2L, hc]
  · intro s d
    simp [parseFuel, jsonStringify2L, quoteString]
  · intro xs ih d
    cases xs with
    | nil => simp [parseFuel, jsonStringify2L, parseFuelElems]
    | cons x t =>
      have := ih (d + 1)
      simp [parseFuel, jsonStringify2L] at this ⊢
      omega
  · intro kvs ih d
    cases kvs with
    | nil => simp [parseFuel, jsonStringify2L, parseFuelMems]
    | cons k v t =>
      have := ih (d + 1)
      simp [parseFuel, jsonStringify2L] at this ⊢
      omega
  · intro d; simp [parseFuelElems, ind2Elems]
  · intro x t ihx iht d
    cases t with
    | nil =>
      have := ihx d
      simp [parseFuelElems, ind2Elems, parseFuel] at this ⊢
      omega
    | cons y t2 =>
      have h1 := ihx d
      have h2 := iht d
      simp [parseFuelElems, ind2Elems] at h2 ⊢
      omega
  · intro d; simp [parseFuelMems, ind2Mems]
  · intro k v t ihv iht d
    cases t with
    | nil =>
      have := ihv d
      simp [parseFuelMems, ind2Mems, quoteString] at this ⊢
      omega
    | cons k2 v2 t2 =>
      have h1 := ihv d
      have h2 := iht d
      simp [parseFuelMems, ind2Mems, quoteString] at h2 ⊢
      omega

theorem jsonParse_stringify {v : JsonValue} (hnd : noDupKeys v = true) :
    jsonParse (jsonStringify v) = some v := by
  have hb : parseFuel v ≤ (jsonStringifyMinL v).length + 1 := by
    have := parseFuel_le_min.1 v
    omega
  have h := (parseMin_round ((jsonStringifyMinL v).length + 1)).1 v [] hb hnd (by rfl)
  rw [List.append_nil] at h
  show (match parseVal ((jsonStringifyMinL v).length + 1) (jsonStringifyMinL v) with
    | some (w, r) => if skipWs r = [] then some w else none
    | none => none) = some v
  rw [h]
  rfl

theorem jsonParse_stringify2 {v : JsonValue} (hnd : noDupKeys v = true) :
    jsonParse (jsonStringify2 v) = some v := by
  have hb : parseFuel v ≤ (jsonStringify2L v 0).length + 1 := by
    have := parseFuel_le_ind2.1 v 0
    omega
  have h := ((parse2_round ((jsonStringify2L v 0).length + 1)).1 v 0 [] []
    (by intro c hc; simp at hc) hb hnd (by rfl))
  rw [List.nil_append, List.append_nil] at h
  show (match parseVal ((jsonStringify2L v 0).length + 1) (jsonStringify2L v 0) with
    | some (w, r) => if skipWs r = [] then some w else none
    | none => none) = some v
  rw [h]
  rfl

/-! ### Formatted view text versus `JSON.stringify(v, null, 2)` -/

theorem plainChar_parts {c : Char} (h : plainChar c = true) :
    ¬ c = '"' ∧ ¬ c = '\\' ∧ 32 ≤ c.toNat := by
  rw [plainChar, Bool.and_eq_true, Bool.and_eq_true] at h
  obtain ⟨⟨h1, h2⟩, h3⟩ := h
  refine ⟨by simpa using h1, by simpa using h2, by simpa using h3⟩

theorem escapeChar_plain {c : Char} (h : plainChar c = true) : escapeChar c = [c] := by
  obtain ⟨h1, h2, h3⟩ := plainChar_parts h
  have hb : ¬ c = Char.ofNat 8 :=
    char_ne_of_toNat (by intro e; rw [show (Char.ofNat 8).toNat = 8 from rfl] at e; omega)
  have hf : ¬ c = Char.ofNat 12 :=
    char_ne_of_toNat (by intro e; rw [show (Char.ofNat 12).toNat = 12 from rfl] at e; omega)
  have hn : ¬ c = '\n' :=
    char_ne_of_toNat (by intro e; rw [show ('\n').toNat = 10 from rfl] at e; omega)
  have hr : ¬ c = '\r' :=
    char_ne_of_toNat (by intro e; rw [show ('\r').toNat = 13 from rfl] at e; omega)
  have ht : ¬ c = '\t' :=
    char_ne_of_toNat (by intro e; rw [show ('\t').toNat = 9 from rfl] at e; omega)
  simp [escapeChar, h1, h2, hb, hf, hn, hr, ht, show ¬ c.toNat < 32 by omega]

theorem escapeList_plain : ∀ l : List Char, l.all plainChar = true → escapeList l = l := by
  intro l
  induction l with
  | nil => intro _; rfl
  | cons c t ih =>
    intro h
    simp only [List.all_cons, Bool.and_eq_true] at h
    rw [escapeList_cons, escapeChar_plain h.1, ih h.2, List.singleton_append]

theorem quoteString_plain {s : String} (h : plainString s = true) :
    quoteString s = '"' :: s.data ++ ['"'] := by
  rw [quoteString, escapeList_plain s.data h]

theorem indentChars_succ (d : Nat) : indentChars (d + 1) = indentChars d ++ [' ', ' '] := by
  simp [indentChars, Nat.mul_succ, List.replicate_add]

theorem renderFmt_eq_stringify2 :
    (∀ v : JsonValue, ∀ d, plainValue v = true → renderFmtTextL v d = jsonStringify2L v d) ∧
    (∀ xs : JsonArr, ∀ d, plainValueArr xs = true →
      renderFmtElems xs d = ind2Elems xs (d + 1)) ∧
    (∀ kvs : JsonObj, ∀ d, plainValueObj kvs = true →
      renderFmtMems kvs d = ind2Mems kvs (d + 1)) := by
  refine @JsonValue.mutualInd
    (fun v => ∀ d, plainValue v = true → renderFmtTextL v d = jsonStringify2L v d)
    (fun xs => ∀ d, plainValueArr xs = true → renderFmtElems xs d = ind2Elems xs (d + 1))
    (fun kvs => ∀ d, plainValueObj kvs = true → renderFmtMems kvs d = ind2Mems kvs (d + 1))
    ?_ ?_ ?_ ?_ ?_ ?_ ?_ ?_ ?_ ?_
  · intro d _; rfl
  · intro b; cases b <;> (intro d _; rfl)
  · intro m e d _; rfl
  · intro s d h
    rw [show plainValue (.str s) = plainString s from rfl] at h
    rw [show renderFmtTextL (.str s) d = '"' :: s.data ++ ['"'] from rfl,
      show jsonStringify2L (.str s) d = quoteString s from rfl, quoteString_plain h]
  · intro xs ih d h
    cases xs with
    | nil => rfl
    | cons x t =>
      rw [show plainValue (.arr (.cons x t)) = plainValueArr (.cons x t) from rfl] at h
      rw [show renderFmtTextL (.arr (.cons x t)) d =
          '[' :: renderFmtElems (.cons x t) d ++ '\n' :: indentChars d ++ [']'] from rfl,
        show jsonStringify2L (.arr (.cons x t)) d =
          '[' :: ind2Elems (.cons x t) (d + 1) ++ '\n' :: indentChars d ++ [']'] from rfl,
        ih d h]
  · intro kvs ih d h
    cases kvs with
    | nil => rfl
    | cons k v t =>
      rw [show plainValue (.obj (.cons k v t)) = plainValueObj (.cons k v t) from rfl] at h
      rw [show renderFmtTextL (.obj (.cons k v t)) d =
          '\x7b' :: renderFmtMems (.cons k v t) d ++ '\n' :: indentChars d ++ ['\x7d']
          from rfl,
        show jsonStringify2L (.obj (.cons k v t)) d =
          '\x7b' :: ind2Mems (.cons k v t) (d + 1) ++ '\n' :: indentChars d ++ ['\x7d']
          from rfl,
        ih d h]
  · intro d _; rfl
  · intro x t ihx iht d h
    rw [show plainValueArr (.cons x t) = (plainValue x && plainValueArr t) from rfl,
      Bool.and_eq_true] at h
    cases t with
    | nil =>
      rw [show renderFmtElems (.cons x .nil) d =
          '\n' :: indentChars d ++ ' ' :: ' ' :: renderFmtTextL x (d + 1) from rfl,
        show ind2Elems (.cons x .nil) (d + 1) =
          '\n' :: indentChars (d + 1) ++ jsonStringify2L x (d + 1) from rfl,
        ihx (d + 1) h.1, indentChars_succ]
      simp
    | cons y t2 =>
      rw [show renderFmtElems (.cons x (.cons y t2)) d =
          '\n' :: indentChars d ++ ' ' :: ' ' :: renderFmtTextL x (d + 1) ++
            ',' :: renderFmtElems (.cons y t2) d from rfl,
        show ind2Elems (.cons x (.cons y t2)) (d + 1) =
          '\n' :: indentChars (d + 1) ++ jsonStringify2L x (d + 1) ++
            ',' :: ind2Elems (.cons y t2) (d + 1) from rfl,
        ihx (d + 1) h.1, iht d h.2, indentChars_succ]
      simp
  · intro d _; rfl
  · intro k v t ihv iht d h
    rw [show plainValueObj (.cons k v t) = (plainString k && plainValue v && plainValueObj t)
      from rfl, Bool.and_eq_true, Bool.and_eq_true] at h
    obtain ⟨⟨hk, hv⟩, hto⟩ := h
    cases t with
    | nil =>
      rw [show renderFmtMems (.cons k v .nil) d =
          '\n' :: indentChars d ++ ' ' :: ' ' :: '"' :: k.data ++ '"' :: ':' :: ' ' ::
            renderFmtTextL v (d + 1) from rfl,
        show ind2Mems (.cons k v .nil) (d + 1) =
          '\n' :: indentChars (d + 1) ++ quoteString k ++ ':' :: ' ' ::
            jsonStringify2L v (d + 1) from rfl,
        ihv (d + 1) hv, indentChars_succ, quoteString_plain hk]
      simp
    | cons k2 v2 t2 =>
      rw [show renderFmtMems (.cons k v (.cons k2 v2 t2)) d =
          '\n' :: indentChars d ++ ' ' :: ' ' :: '"' :: k.data ++ '"' :: ':' :: ' ' ::
            renderFmtTextL v (d + 1) ++ ',' :: renderFmtMems (.cons k2 v2 t2) d from rfl,
        show ind2Mems (.cons k v (.cons k2 v2 t2)) (d + 1) =
          '\n' :: indentChars (d + 1) ++ quoteString k ++ ':' :: ' ' ::
            (jsonStringify2L v (d + 1) ++
              ',' :: ind2Mems (.cons k2 v2 t2) (d + 1)) by
          simp [ind2Mems, List.cons_append, List.append_assoc],
        ihv (d + 1) hv, iht d hto,
        indentChars_succ, quoteString_plain hk]
      simp

/-! ### Paths: correspondence, injectivity, uniqueness -/

theorem string_data_injective {a b : String} (h : a.data = b.data) : a = b := by
  cases a
  cases b
  exact congrArg String.mk h

theorem dotJoinFrom_cons (p k : String) (pos : List String) :
    dotJoinFrom p (k :: pos) = dotJoinFrom (p ++ "." ++ k) pos := rfl

theorem natToString_injective {a b : Nat} (h : natToString a = natToString b) : a = b :=
  natDigits_injective (by simpa [natToString] using congrArg String.data h)

theorem getAllPaths_eq_positions :
    (∀ v : JsonValue, ∀ p, getAllPaths v p = (allPositions v).map (dotJoinFrom p)) ∧
    (∀ xs : JsonArr, ∀ p i,
      getAllPathsArr xs p i = (allPositionsArr xs i).map (dotJoinFrom p)) ∧
    (∀ kvs : JsonObj, ∀ p,
      getAllPathsObj kvs p = (allPositionsObj kvs).map (dotJoinFrom p)) := by
  refine @JsonValue.mutualInd
    (fun v => ∀ p, getAllPaths v p = (allPositions v).map (dotJoinFrom p))
    (fun xs => ∀ p i, getAllPathsArr xs p i = (allPositionsArr xs i).map (dotJoinFrom p))
    (fun kvs => ∀ p, getAllPathsObj kvs p = (allPositionsObj kvs).map (dotJoinFrom p))
    ?_ ?_ ?_ ?_ ?_ ?_ ?_ ?_ ?_ ?_
  · intro p; rfl
  · intro b p; rfl
  · intro m e p; rfl
  · intro s p; rfl
  · intro xs ih p
    rw [show getAllPaths (.arr xs) p = p :: getAllPathsArr xs p 0 from rfl,
      show allPositions (.arr xs) = [] :: allPositionsArr xs 0 from rfl,
      List.map_cons, ih p 0]
    rfl
  · intro kvs ih p
    rw [show getAllPaths (.obj kvs) p = p :: getAllPathsObj kvs p from rfl,
      show allPositions (.obj kvs) = [] :: allPositionsObj kvs from rfl,
      List.map_cons, ih p]
    rfl
  · intro p i; rfl
  · intro x t ihx iht p i
    rw [show getAllPathsArr (.cons x t) p i =
        getAllPaths x (p ++ "." ++ natToString i) ++ getAllPathsArr t p (i + 1) from rfl,
      show allPositionsArr (.cons x t) i =
        (allPositions x).map (natToString i :: ·) ++ allPositionsArr t (i + 1) from rfl,
      List.map_append, List.map_map, ihx (p ++ "." ++ natToString i), iht p (i + 1)]
    rfl
  · intro p; rfl
  · intro k v t ihv iht p
    rw [show getAllPathsObj (.cons k v t) p =
        getAllPaths v (p ++ "." ++ k) ++ getAllPathsObj t p from rfl,
      show allPositionsObj (.cons k v t) =
        (allPositions v).map (k :: ·) ++ allPositionsObj t from rfl,
      List.map_append, List.map_map, ihv (p ++ "." ++ k), iht p]
    rfl

theorem dotJoinFrom_data (p : String) :
    ∀ pos : List String,
      (dotJoinFrom p pos).data = p.data ++ dotBlocks (pos.map String.data) := by
  intro pos
  induction pos generalizing p with
  | nil => simp [dotJoinFrom, dotBlocks]
  | cons k pos ih =>
    rw [dotJoinFrom_cons, ih]
    rw [show ((p ++ "." ++ k)).data = p.data ++ '.' :: k.data by
      rw [String.data_append, String.data_append,
        show (".").data = ['.'] from rfl]
      simp]
    simp [dotBlocks]

theorem headDot_split :
    ∀ a b s t : List Char, (∀ c ∈ a, ¬ c = '.') → (∀ c ∈ b, ¬ c = '.') →
      (s = [] ∨ ∃ u, s = '.' :: u) → (t = [] ∨ ∃ u, t = '.' :: u) →
      a ++ s = b ++ t → a = b ∧ s = t := by
  intro a
  induction a with
  | nil =>
    intro b s t _ hb hs _ he
    cases b with
    | nil => exact ⟨rfl, he⟩
    | cons c b2 =>
      exfalso
      rcases hs with hs | ⟨u, hu⟩
      · subst hs
        simp at he
      · subst hu
        simp at he
        exact hb c (by simp) (by first | exact he.1.symm | exact he.1)
  | cons c a2 ih =>
    intro b s t ha hb hs ht he
    cases b with
    | nil =>
      exfalso
      rcases ht with ht | ⟨u, hu⟩
      · subst ht
        simp at he
      · subst hu
        simp at he
        exact ha c (by simp) (by first | exact he.1.symm | exact he.1)
    | cons c2 b2 =>
      simp only [List.cons_append, List.cons.injEq] at he
      obtain ⟨hc, he2⟩ := he
      obtain ⟨h1, h2⟩ := ih b2 s t (fun d hd => ha d (by simp [hd]))
        (fun d hd => hb d (by simp [hd])) hs ht he2
      exact ⟨by rw [hc, h1], h2⟩

theorem dotBlocks_headDot (l : List (List Char)) :
    dotBlocks l = [] ∨ ∃ u, dotBlocks l = '.' :: u := by
  cases l with
  | nil => exact Or.inl rfl
  | cons k r => exact Or.inr ⟨k ++ dotBlocks r, by simp [dotBlocks]⟩

theorem dotBlocks_injective :
    ∀ l1 l2 : List (List Char), (∀ k ∈ l1, ∀ c ∈ k, ¬ c = '.') →
      (∀ k ∈ l2, ∀ c ∈ k, ¬ c = '.') → dotBlocks l1 = dotBlocks l2 → l1 = l2 := by
  intro l1
  induction l1 with
  | nil =>
    intro l2 _ _ he
    cases l2 with
    | nil => rfl
    | cons k r => simp [dotBlocks] at he
  | cons k1 r1 ih =>
    intro l2 h1 h2 he
    cases l2 with
    | nil => simp [dotBlocks] at he
    | cons k2 r2 =>
      rw [show dotBlocks (k1 :: r1) = '.' :: (k1 ++ dotBlocks r1) by simp [dotBlocks],
        show dotBlocks (k2 :: r2) = '.' :: (k2 ++ dotBlocks r2) by simp [dotBlocks]] at he
      simp only [List.cons.injEq, true_and] at he
      obtain ⟨hk, hr⟩ := headDot_split k1 k2 (dotBlocks r1) (dotBlocks r2)
        (h1 k1 (by simp)) (h2 k2 (by simp)) (dotBlocks_headDot r1) (dotBlocks_headDot r2) he
      rw [hk, ih r2 (fun k hk2 => h1 k (by simp [hk2])) (fun k hk2 => h2 k (by simp [hk2])) hr]

theorem cons_seg_injective (k : String) :
    ∀ a b : List String, k :: a = k :: b → a = b := by
  intro a b h
  simpa using h

theorem allPositions_nodup :
    (∀ v : JsonValue, noDupKeys v = true → (allPositions v).Nodup) ∧
    (∀ xs : JsonArr, ∀ i, noDupKeysArr xs = true →
      (allPositionsArr xs i).Nodup ∧
      ∀ pos ∈ allPositionsArr xs i, ∃ j pos2, i ≤ j ∧ pos = natToString j :: pos2) ∧
    (∀ kvs : JsonObj, noDupKeysObj kvs = true → kvs.keyList.Nodup →
      (allPositionsObj kvs).Nodup ∧
      ∀ pos ∈ allPositionsObj kvs, ∃ k2 pos2, k2 ∈ kvs.keyList ∧ pos = k2 :: pos2) := by
  refine @JsonValue.mutualInd
    (fun v => noDupKeys v = true → (allPositions v).Nodup)
    (fun xs => ∀ i, noDupKeysArr xs = true →
      (allPositionsArr xs i).Nodup ∧
      ∀ pos ∈ allPositionsArr xs i, ∃ j pos2, i ≤ j ∧ pos = natToString j :: pos2)
    (fun kvs => noDupKeysObj kvs = true → kvs.keyList.Nodup →
      (allPositionsObj kvs).Nodup ∧
      ∀ pos ∈ allPositionsObj kvs, ∃ k2 pos2, k2 ∈ kvs.keyList ∧ pos = k2 :: pos2)
    ?_ ?_ ?_ ?_ ?_ ?_ ?_ ?_ ?_ ?_
  · intro _; exact List.nodup_singleton []
  · intro b _; exact List.nodup_singleton []
  · intro m e _; exact List.nodup_singleton []
  · intro s _; exact List.nodup_singleton []
  · intro xs ih h
    rw [show noDupKeys (.arr xs) = noDupKeysArr xs from rfl] at h
    obtain ⟨hnd, hshape⟩ := ih 0 h
    rw [show allPositions (.arr xs) = [] :: allPositionsArr xs 0 from rfl]
    refine List.nodup_cons.mpr ⟨?_, hnd⟩
    intro hmem
    obtain ⟨j, pos2, _, hp⟩ := hshape [] hmem
    simp at hp
  · intro kvs ih h
    rw [show noDupKeys (.obj kvs) =
      (decide kvs.keyList.Nodup && noDupKeysObj kvs) from rfl, Bool.and_eq_true] at h
    obtain ⟨hnd, hshape⟩ := ih h.2 (of_decide_eq_true h.1)
    rw [show allPositions (.obj kvs) = [] :: allPositionsObj kvs from rfl]
    refine List.nodup_cons.mpr ⟨?_, hnd⟩
    intro hmem
    obtain ⟨k2, pos2, _, hp⟩ := hshape [] hmem
    simp at hp
  · intro i _
    exact ⟨List.nodup_nil, by intro pos h; simp [allPositionsArr] at h⟩
  · intro x t ihx iht i h
    rw [show noDupKeysArr (.cons x t) = (noDupKeys x && noDupKeysArr t) from rfl,
      Bool.and_eq_true] at h
    obtain ⟨hndt, hshapet⟩ := iht (i + 1) h.2
    have hndx := ihx h.1
    rw [show allPositionsArr (.cons x t) i =
      (allPositions x).map (natToString i :: ·) ++ allPositionsArr t (i + 1) from rfl]
    constructor
    · refine List.Nodup.append ?_ hndt ?_
      · exact hndx.map (cons_seg_injective _)
      · intro pos hl hr
        obtain ⟨pos0, _, hp0⟩ := List.mem_map.mp hl
        obtain ⟨j, pos2, hj, hp⟩ := hshapet pos hr
        rw [← hp0] at hp
        have : natToString i = natToString j := by
          simpa using congrArg (fun l => l.headI) hp
        have := natToString_injective this
        omega
    · intro pos hmem
      rcases List.mem_append.mp hmem with hl | hr
      · obtain ⟨pos0, _, hp0⟩ := List.mem_map.mp hl
        exact ⟨i, pos0, le_refl i, hp0.symm⟩
      · obtain ⟨j, pos2, hj, hp⟩ := hshapet pos hr
        exact ⟨j, pos2, by omega, hp⟩
  · intro _ _
    exact ⟨List.nodup_nil, by intro pos h; simp [allPositionsObj] at h⟩
  · intro k v t ihv iht h hkeys
    rw [show noDupKeysObj (.cons k v t) = (noDupKeys v && noDupKeysObj t) from rfl,
      Bool.and_eq_true] at h
    rw [show (JsonObj.cons k v t).keyList = k :: t.keyList from rfl, List.nodup_cons] at hkeys
    obtain ⟨hndt, hshapet⟩ := iht h.2 hkeys.2
    have hndv := ihv h.1
    rw [show allPositionsObj (.cons k v t) =
      (allPositions v).map (k :: ·) ++ allPositionsObj t from rfl]
    constructor
    · refine List.Nodup.append ?_ hndt ?_
      · exact hndv.map (cons_seg_injective _)
      · intro pos hl hr
        obtain ⟨pos0, _, hp0⟩ := List.mem_map.mp hl
        obtain ⟨k2, pos2, hk2, hp⟩ := hshapet pos hr
        rw [← hp0] at hp
        have hkk : k = k2 := by
          simpa using congrArg (fun l => l.headI) hp
        exact hkeys.1 (hkk ▸ hk2)
    · intro pos hmem
      rcases List.mem_append.mp hmem with hl | hr
      · obtain ⟨pos0, _, hp0⟩ := List.mem_map.mp hl
        exact ⟨k, pos0, by simp [JsonObj.keyList], hp0.symm⟩
      · obtain ⟨k2, pos2, hk2, hp⟩ := hshapet pos hr
        exact ⟨k2, pos2, by simp [JsonObj.keyList, hk2], hp⟩

theorem natToString_no_dot (n : Nat) : ∀ c ∈ (natToString n).data, ¬ c = '.' := by
  intro c hc
  have hd := natDigits_isDigit n c (by simpa [natToString] using hc)
  obtain ⟨h1, h2⟩ := isDigit_toNat hd
  exact char_ne_of_toNat (by intro e; rw [show ('.').toNat = 46 from rfl] at e; omega)

theorem noDotKey_chars {k : String} (h : noDotKey k = true) : ∀ c ∈ k.data, ¬ c = '.' := by
  intro c hc
  have := (List.all_eq_true.mp h) c hc
  simpa using this

theorem allPositions_dotFree :
    (∀ v : JsonValue, dotFreeKeys v = true →
      ∀ pos ∈ allPositions v, ∀ seg ∈ pos, ∀ c ∈ seg.data, ¬ c = '.') ∧
    (∀ xs : JsonArr, ∀ i, dotFreeKeysArr xs = true →
      ∀ pos ∈ allPositionsArr xs i, ∀ seg ∈ pos, ∀ c ∈ seg.data, ¬ c = '.') ∧
    (∀ kvs : JsonObj, dotFreeKeysObj kvs = true →
      ∀ pos ∈ allPositionsObj kvs, ∀ seg ∈ pos, ∀ c ∈ seg.data, ¬ c = '.') := by
  refine @JsonValue.mutualInd
    (fun v => dotFreeKeys v = true →
      ∀ pos ∈ allPositions v, ∀ seg ∈ pos, ∀ c ∈ seg.data, ¬ c = '.')
    (fun xs => ∀ i, dotFreeKeysArr xs = true →
      ∀ pos ∈ allPositionsArr xs i, ∀ seg ∈ pos, ∀ c ∈ seg.data, ¬ c = '.')
    (fun kvs => dotFreeKeysObj kvs = true →
      ∀ pos ∈ allPositionsObj kvs, ∀ seg ∈ pos, ∀ c ∈ seg.data, ¬ c = '.')
    ?_ ?_ ?_ ?_ ?_ ?_ ?_ ?_ ?_ ?_
  · intro _ pos hpos seg hseg
    simp [allPositions] at hpos
    subst hpos
    simp at hseg
  · intro b _ pos hpos seg hseg
    simp [allPositions] at hpos
    subst hpos
    simp at hseg
  · intro m e _ pos hpos seg hseg
    simp [allPositions] at hpos
    subst hpos
    simp at hseg
  · intro s _ pos hpos seg hseg
    simp [allPositions] at hpos
    subst hpos
    simp at hseg
  · intro xs ih h pos hpos seg hseg
    rw [show dotFreeKeys (.arr xs) = dotFreeKeysArr xs from rfl] at h
    rw [show allPositions (.arr xs) = [] :: allPositionsArr xs 0 from rfl] at hpos
    rcases List.mem_cons.mp hpos with hpos | hpos
    · subst hpos; simp at hseg
    · exact ih 0 h pos hpos seg hseg
  · intro kvs ih h pos hpos seg hseg
    rw [show dotFreeKeys (.obj kvs) = dotFreeKeysObj kvs from rfl] at h
    rw [show allPositions (.obj kvs) = [] :: allPositionsObj kvs from rfl] at hpos
    rcases List.mem_cons.mp hpos with hpos | hpos
    · subst hpos; simp at hseg
    · exact ih h pos hpos seg hseg
  · intro i _ pos hpos
    simp [allPositionsArr] at hpos
  · intro x t ihx iht i h pos hpos seg hseg
    rw [show dotFreeKeysArr (.cons x t) = (dotFreeKeys x && dotFreeKeysArr t) from rfl,
      Bool.and_eq_true] at h
    rw [show allPositionsArr (.cons x t) i =
      (allPositions x).map (natToString i :: ·) ++ allPositionsArr t (i + 1) from rfl] at hpos
    rcases List.mem_append.mp hpos with hl | hr
    · obtain ⟨pos0, hpos0, hp0⟩ := List.mem_map.mp hl
      subst hp0
      rcases List.mem_cons.mp hseg with hseg | hseg
      · subst hseg; exact natToString_no_dot i
      · exact ihx h.1 pos0 hpos0 seg hseg
    · exact iht (i + 1) h.2 pos hr seg hseg
  · intro _ pos hpos
    simp [allPositionsObj] at hpos
  · intro k v t ihv iht h pos hpos seg hseg
    rw [show dotFreeKeysObj (.cons k v t) =
      (noDotKey k && dotFreeKeys v && dotFreeKeysObj t) from rfl,
      Bool.and_eq_true, Bool.and_eq_true] at h
    rw [show allPositionsObj (.cons k v t) =
      (allPositions v).map (k :: ·) ++ allPositionsObj t from rfl] at hpos
    rcases List.mem_append.mp hpos with hl | hr
    · obtain ⟨pos0, hpos0, hp0⟩ := List.mem_map.mp hl
      subst hp0
      rcases List.mem_cons.mp hseg with hseg | hseg
      · subst hseg; exact noDotKey_chars h.1.1
      · exact ihv h.1.2 pos0 hpos0 seg hseg
    · exact iht h.2 pos hr seg hseg

theorem getAllPaths_nodup {v : JsonValue} (h1 : noDupKeys v = true)
    (h2 : dotFreeKeys v = true) (p : String) : (getAllPaths v p).Nodup := by
  rw [getAllPaths_eq_positions.1 v p]
  refine List.Nodup.map_on ?_ (allPositions_nodup.1 v h1)
  intro pos1 hm1 pos2 hm2 he
  have hd := congrArg String.data he
  rw [dotJoinFrom_data, dotJoinFrom_data] at hd
  have hblocks := List.append_cancel_left hd
  have hseg1 : ∀ k ∈ pos1.map String.data, ∀ c ∈ k, ¬ c = '.' := by
    intro k hk c hc
    obtain ⟨seg, hsm, hsd⟩ := List.mem_map.mp hk
    exact allPositions_dotFree.1 v h2 pos1 hm1 seg hsm c (by rw [hsd]; exact hc)
  have hseg2 : ∀ k ∈ pos2.map String.data, ∀ c ∈ k, ¬ c = '.' := by
    intro k hk c hc
    obtain ⟨seg, hsm, hsd⟩ := List.mem_map.mp hk
    exact allPositions_dotFree.1 v h2 pos2 hm2 seg hsm c (by rw [hsd]; exact hc)
  have hmaps := dotBlocks_injective (pos1.map String.data) (pos2.map String.data)
    hseg1 hseg2 hblocks
  exact List.map_injective_iff.mpr (fun a b hab => string_data_injective hab) hmaps

theorem collectPaths_createNode :
    (∀ v : JsonValue, ∀ ex key path,
      collectPaths (createNode ex key v path) = getAllPaths v path) ∧
    (∀ xs : JsonArr, ∀ ex path i,
      collectPathsList (createNodeArr ex xs path i) = getAllPathsArr xs path i) ∧
    (∀ kvs : JsonObj, ∀ ex path,
      collectPathsList (createNodeObj ex kvs path) = getAllPathsObj kvs path) := by
  refine @JsonValue.mutualInd
    (fun v => ∀ ex key path, collectPaths (createNode ex key v path) = getAllPaths v path)
    (fun xs => ∀ ex path i,
      collectPathsList (createNodeArr ex xs path i) = getAllPathsArr xs path i)
    (fun kvs => ∀ ex path,
      collectPathsList (createNodeObj ex kvs path) = getAllPathsObj kvs path)
    ?_ ?_ ?_ ?_ ?_ ?_ ?_ ?_ ?_ ?_
  · intro ex key path; rfl
  · intro b ex key path; cases b <;> rfl
  · intro m e ex key path; rfl
  · intro s ex key path; rfl
  · intro xs ih ex key path
    rw [show createNode ex key (.arr xs) path =
      .mk key (.arr xs) path (decide (path ∈ ex)) (some (createNodeArr ex xs path 0))
      from rfl]
    rw [show collectPaths (.mk key (.arr xs) path (decide (path ∈ ex))
        (some (createNodeArr ex xs path 0))) =
      path :: collectPathsList (createNodeArr ex xs path 0) from rfl]
    rw [ih ex path 0]
    rfl
  · intro kvs ih ex key path
    rw [show createNode ex key (.obj kvs) path =
      .mk key (.obj kvs) path (decide (path ∈ ex)) (some (createNodeObj ex kvs path))
      from rfl]
    rw [show collectPaths (.mk key (.obj kvs) path (decide (path ∈ ex))
        (some (createNodeObj ex kvs path))) =
      path :: collectPathsList (createNodeObj ex kvs path) from rfl]
    rw [ih ex path]
    rfl
  · intro ex path i; rfl
  · intro x t ihx iht ex path i
    rw [show createNodeArr ex (.cons x t) path i =
      .cons (createNode ex (natToString i) x (path ++ "." ++ natToString i))
        (createNodeArr ex t path (i + 1)) from rfl]
    rw [show collectPathsList (JsonNodeList.cons
        (createNode ex (natToString i) x (path ++ "." ++ natToString i))
        (createNodeArr ex t path (i + 1))) =
      collectPaths (createNode ex (natToString i) x (path ++ "." ++ natToString i)) ++
        collectPathsList (createNodeArr ex t path (i + 1)) from rfl]
    rw [ihx ex (natToString i) (path ++ "." ++ natToString i), iht ex path (i + 1)]
    rfl
  · intro ex path; rfl
  · intro k v t ihv iht ex path
    rw [show createNodeObj ex (.cons k v t) path =
      .cons (createNode ex k v (path ++ "." ++ k)) (createNodeObj ex t path) from rfl]
    rw [show collectPathsList (JsonNodeList.cons (createNode ex k v (path ++ "." ++ k))
        (createNodeObj ex t path)) =
      collectPaths (createNode ex k v (path ++ "." ++ k)) ++
        collectPathsList (createNodeObj ex t path) from rfl]
    rw [ihv ex k (path ++ "." ++ k), iht ex path]
    rfl

/-! ### Debounce lemmas -/

theorem debounceRun_aux :
    ∀ (edits : List (Nat × String)) (t0 tl : Nat) (c0 cl : String) (V : List String),
      withinWindow ((t0, c0) :: edits) = true →
      ((t0, c0) :: edits).getLast? = some (tl, cl) →
      List.foldl (fun st e => debounceEdit e.1 e.2 st)
        ⟨some (t0 + debounceMs, c0), V⟩ edits = ⟨some (tl + debounceMs, cl), V⟩ := by
  intro edits
  induction edits with
  | nil =>
    intro t0 tl c0 cl V _ hl
    simp at hl
    obtain ⟨h1, h2⟩ := hl
    subst h1
    subst h2
    rfl
  | cons e rest ih =>
    intro t0 tl c0 cl V hw hl
    obtain ⟨t1, c1⟩ := e
    rw [show withinWindow ((t0, c0) :: (t1, c1) :: rest) =
      (decide (t0 < t1) && decide (t1 < t0 + debounceMs) &&
        withinWindow ((t1, c1) :: rest)) from rfl, Bool.and_eq_true, Bool.and_eq_true] at hw
    obtain ⟨⟨hlt, hwin⟩, hw2⟩ := hw
    rw [List.getLast?_cons_cons] at hl
    rw [List.foldl_cons]
    rw [show debounceEdit (t1, c1).1 (t1, c1).2 ⟨some (t0 + debounceMs, c0), V⟩ =
        ⟨some (t1 + debounceMs, c1), V⟩ by
      simp only [debounceEdit, fireDue]
      rw [if_neg (by have := of_decide_eq_true hwin; omega)]]
    exact ih t1 tl c1 cl V hw2 hl

/-! ## Claims -/

/-- C1 counterexample: for the parsed string value consisting of one `"`
character, the formatted view's text (which interpolates strings between
quotes verbatim) is three quote characters, while the canonical 2-space
serialization escapes the quote — so the claim as stated is false at this
value. -/
theorem c1_counterexample :
    renderFmtText (.str "\"") 0 ≠ jsonStringify2 (.str "\"") ∧
    renderFmtText (.str "\"") 0 = "\"\"\"" ∧
    jsonStringify2 (.str "\"") = "\"\\\"\"" := by decide

/-- C1 (amended): for every JsonValue whose string scalars and object keys
contain only characters `JSON.stringify` emits verbatim (no `"`, `\` or
control characters), the text of `renderSyntaxHighlightedJson(v, 0)` is
exactly `JSON.stringify(v, null, 2)` — empty containers atomically, children
one level deeper, commas between siblings, closing bracket at the parent's
indent. On strings that need escapes the two differ (`c1_counterexample`). -/
theorem c1_renderFmtText_eq_format (v : JsonValue) (h : plainValue v = true) :
    renderFmtText v 0 = jsonStringify2 v :=
  congrArg String.mk (renderFmt_eq_stringify2.1 v 0 h)

/-- Witness for C1 at the document `{"a":1,"b":[true,null]}`. -/
theorem c1_witness :
    plainValue (.obj (.cons "a" (.num 1 0)
      (.cons "b" (.arr (.cons (.bool true) (.cons .null .nil))) .nil))) = true ∧
    renderFmtText (.obj (.cons "a" (.num 1 0)
      (.cons "b" (.arr (.cons (.bool true) (.cons .null .nil))) .nil))) 0 =
      jsonStringify2 (.obj (.cons "a" (.num 1 0)
        (.cons "b" (.arr (.cons (.bool true) (.cons .null .nil))) .nil))) :=
  ⟨by decide, c1_renderFmtText_eq_format _ (by decide)⟩

/-- C2 counterexample: in `{"a": {"b": 1}, "a.b": 2}` the structural
positions are pairwise distinct, yet two distinct positions both derive the
path string `root.a.b`, because a key contains the `.` separator. -/
theorem c2_counterexample :
    (allPositions (JsonValue.obj (.cons "a" (.obj (.cons "b" (.num 1 0) .nil))
      (.cons "a.b" (.num 2 0) .nil)))).Nodup ∧
    ¬ (collectPaths (createNode ∅ "root"
        (JsonValue.obj (.cons "a" (.obj (.cons "b" (.num 1 0) .nil))
          (.cons "a.b" (.num 2 0) .nil))) "root")).Nodup := by decide

/-- C2 (amended): the tree built by `createNode` carries exactly the
pre-order path list `getAllPaths` computes — with child path equal to
parent path + "." + child key — independently of the expand set, so two
builds from the same value assign identical paths; and the paths of distinct
positions are pairwise distinct provided no object key contains the `.`
separator (keys being per-object distinct, as `JSON.parse` guarantees).
With a key containing `.` distinct positions can collide
(`c2_counterexample`). -/
theorem c2_createNode_paths (v : JsonValue) (s1 s2 : ExpandState) :
    collectPaths (createNode s1 "root" v "root") = getAllPaths v "root" ∧
    collectPaths (createNode s1 "root" v "root") =
      collectPaths (createNode s2 "root" v "root") ∧
    (noDupKeys v = true → dotFreeKeys v = true →
      (collectPaths (createNode s1 "root" v "root")).Nodup) := by
  refine ⟨collectPaths_createNode.1 v s1 "root" "root", ?_, ?_⟩
  · rw [collectPaths_createNode.1 v s1 "root" "root",
      collectPaths_createNode.1 v s2 "root" "root"]
  · intro h1 h2
    rw [collectPaths_createNode.1 v s1 "root" "root"]
    exact getAllPaths_nodup h1 h2 "root"

/-- Witness for C2 at the document `{"a":1,"b":[true,null]}` with two
different expand sets. -/
theorem c2_witness :
    collectPaths (createNode ∅ "root" (.obj (.cons "a" (.num 1 0)
      (.cons "b" (.arr (.cons (.bool true) (.cons .null .nil))) .nil))) "root") =
      getAllPaths (.obj (.cons "a" (.num 1 0)
        (.cons "b" (.arr (.cons (.bool true) (.cons .null .nil))) .nil))) "root" ∧
    (collectPaths (createNode ∅ "root" (.obj (.cons "a" (.num 1 0)
      (.cons "b" (.arr (.cons (.bool true) (.cons .null .nil))) .nil))) "root")).Nodup := by
  have h := c2_createNode_paths (.obj (.cons "a" (.num 1 0)
    (.cons "b" (.arr (.cons (.bool true) (.cons .null .nil))) .nil))) ∅ {"root"}
  exact ⟨h.1, h.2.2 (by decide) (by decide)⟩

/-- C3: the validation coordinator maps blank (empty or whitespace-only)
input to the neutral state — no parsed document and empty error text,
distinct from Invalid; on a parse failure it stores the parser's diagnostic
and clears any prior value; on a parse success it stores the value and
clears any prior error. The buffer field itself is untouched in all cases. -/
theorem c3_validateAndParseJson_spec (input : String) (st : EditorState) :
    (isBlank input = true →
      validateAndParseJson input st =
        { st with parsedJson := none, validationError := "" }) ∧
    (∀ e, isBlank input = false → jsonParseE input = .error e →
      validateAndParseJson input st =
        { st with parsedJson := none, validationError := e }) ∧
    (∀ v, isBlank input = false → jsonParseE input = .ok v →
      validateAndParseJson input st =
        { st with parsedJson := some v, validationError := "" }) := by
  refine ⟨?_, ?_, ?_⟩
  · intro h
    simp [validateAndParseJson, h]
  · intro e hb he
    simp [validateAndParseJson, hb, he]
  · intro v hb hv
    simp [validateAndParseJson, hb, hv]

/-- Witness for C3: blank input `" "` resets a stale state to neutral, and
the invalid input `"{"` stores a diagnostic and clears the value. -/
theorem c3_witness :
    validateAndParseJson " "
      { jsonInput := "x", parsedJson := some .null, validationError := "old" } =
      { jsonInput := "x", parsedJson := none, validationError := "" } ∧
    validateAndParseJson "\x7b"
      { jsonInput := "\x7b", parsedJson := some .null, validationError := "" } =
      { jsonInput := "\x7b", parsedJson := none,
        validationError := "Unexpected token in JSON" } := by
  constructor
  · exact (c3_validateAndParseJson_spec " " _).1 (by decide)
  · exact (c3_validateAndParseJson_spec "\x7b" _).2.1 "Unexpected token in JSON"
      (by decide) (by rfl)

/-- C4: `collapseAll` replaces ExpandState with exactly the singleton
`{"root"}` from any prior state; in particular `expandAll` — which, for a
truthy parsed value, replaces ExpandState with the set of every pre-order
path of the document — followed by `collapseAll` leaves exactly `{"root"}`. -/
theorem c4_collapseAll_spec :
    (∀ s : ExpandState, collapseAll s = {"root"}) ∧
    (∀ (p : Option JsonValue) (s : ExpandState), collapseAll (expandAll p s) = {"root"}) ∧
    (∀ (v : JsonValue) (s : ExpandState), jsTruthy v = true →
      expandAll (some v) s = (getAllPaths v "root").toFinset) := by
  refine ⟨fun _ => rfl, fun _ _ => rfl, ?_⟩
  intro v s h
  simp [expandAll, h]

/-- Witness for C4: expand-all on the sample document then collapse-all
leaves exactly `{"root"}`. -/
theorem c4_witness :
    collapseAll (expandAll (some sampleJson) {"root"}) = {"root"} ∧
    expandAll (some sampleJson) {"root"} =
      (getAllPaths sampleJson "root").toFinset := by
  have h := c4_collapseAll_spec
  exact ⟨h.2.1 (some sampleJson) {"root"}, h.2.2 sampleJson {"root"} (by decide)⟩

/-- C5: for every JsonValue with per-object distinct keys — which every
value obtainable from `JSON.parse` has, since a JS object cannot hold a key
twice — parsing the minified serialization yields the value back, and
parsing the 2-space-indent formatted serialization yields the value back
(round trip on value, not on text). -/
theorem c5_parse_roundtrip (v : JsonValue) (hnd : noDupKeys v = true) :
    jsonParse (jsonStringify v) = some v ∧ jsonParse (jsonStringify2 v) = some v :=
  ⟨jsonParse_stringify hnd, jsonParse_stringify2 hnd⟩

/-- Witness for C5 at the built-in sample document. -/
theorem c5_witness :
    noDupKeys sampleJson = true ∧
    jsonParse (jsonStringify sampleJson) = some sampleJson ∧
    jsonParse (jsonStringify2 sampleJson) = some sampleJson :=
  ⟨by decide, (c5_parse_roundtrip sampleJson (by decide)).1,
    (c5_parse_roundtrip sampleJson (by decide)).2⟩

/-- C7: toggling a node's path twice returns ExpandState membership of that
path to its value in the original state, and a single toggle flips
membership — removing the path when present, adding it when absent. -/
theorem c7_toggle_involutive (p : String) (s : ExpandState) :
    (p ∈ handleNodeToggle p (handleNodeToggle p s) ↔ p ∈ s) ∧
    (p ∈ handleNodeToggle p s ↔ p ∉ s) := by
  unfold handleNodeToggle
  by_cases h : p ∈ s <;> simp [h]

/-- C8: in the debounce model of the 300 ms quiescence effect — each edit
clears the timer of any not-yet-fired validation, discarding its superseded
content, and schedules the new content 300 ms out — a nonempty sequence of
edits in which each edit arrives strictly within the window of its
predecessor produces, once quiescent, exactly one validation pass, and it
validates the final buffer content. -/
theorem c8_debounce_single_validation (edits : List (Nat × String)) (t : Nat) (c : String)
    (hw : withinWindow edits = true) (hl : edits.getLast? = some (t, c)) :
    debounceSettle (debounceRun edits) = [c] := by
  cases edits with
  | nil => simp at hl
  | cons e rest =>
    obtain ⟨t0, c0⟩ := e
    rw [debounceRun, List.foldl_cons]
    rw [show debounceEdit (t0, c0).1 (t0, c0).2 ⟨none, []⟩ =
      ⟨some (t0 + debounceMs, c0), []⟩ from rfl]
    rw [debounceRun_aux rest t0 t c0 c [] hw hl]
    rfl

/-- Witness for C8: three edits 100–150 ms apart yield one validation pass
with the final content `"abc"`. -/
theorem c8_witness :
    debounceSettle (debounceRun [(0, "a"), (100, "ab"), (250, "abc")]) = ["abc"] :=
  c8_debounce_single_validation [(0, "a"), (100, "ab"), (250, "abc")] 250 "abc"
    (by decide) (by decide)

/-- C9: a file whose MIME type is not `application/json` and whose name does
not end in `.json` is rejected before any read starts: the destructive
notice is shown, no read begins, and the editor state — buffer text
included — is exactly the state before the upload attempt. -/
theorem c9_upload_rejected (f : UploadedFile) (st : EditorState)
    (hm : f.mimeType ≠ "application/json") (hn : strEndsWith f.name ".json" = false) :
    handleFileUpload (some f) st =
      ⟨st, some ⟨"Invalid file type", "Please upload a JSON file"⟩, false⟩ := by
  show (if f.mimeType ≠ "application/json" ∧ ¬ strEndsWith f.name ".json" = true then
      UploadOutcome.mk st
        (some (ToastNotice.mk "Invalid file type" "Please upload a JSON file")) false
    else UploadOutcome.mk { st with jsonInput := f.content } none true) =
    UploadOutcome.mk st
      (some (ToastNotice.mk "Invalid file type" "Please upload a JSON file")) false
  rw [if_pos ⟨hm, by simp [hn]⟩]

/-- Witness for C9: uploading `notes.txt` leaves the state untouched and
shows the notice. -/
theorem c9_witness :
    handleFileUpload (some ⟨"notes.txt", "text/plain", "hello"⟩)
      (mountEffect initialEditorState) =
      ⟨mountEffect initialEditorState,
        some ⟨"Invalid file type", "Please upload a JSON file"⟩, false⟩ :=
  c9_upload_rejected ⟨"notes.txt", "text/plain", "hello"⟩ (mountEffect initialEditorState)
    (by decide) (by decide)

/-- C10: on mount, before any user input, the effect prefills the buffer
with the built-in sample serialized at 2-space indent and sets the parsed
document to the sample directly — not through a debounce or validation
pass — so the editor does not sit in the neutral empty-input state; the
later debounced validation of that prefilled buffer is a no-op. -/
theorem c10_mount_prefills_sample :
    mountEffect initialEditorState =
      { jsonInput := jsonStringify2 sampleJson, parsedJson := some sampleJson,
        validationError := "" } ∧
    (mountEffect initialEditorState).parsedJson ≠ none ∧
    validateAndParseJson (mountEffect initialEditorState).jsonInput
      (mountEffect initialEditorState) = mountEffect initialEditorState := by
  refine ⟨rfl, by simp [mountEffect, initialEditorState], ?_⟩
  have hblank : isBlank (jsonStringify2 sampleJson) = false := by decide
  have hparse : jsonParseE (jsonStringify2 sampleJson) = .ok sampleJson := by
    rw [jsonParseE, jsonParse_stringify2 (show noDupKeys sampleJson = true by decide)]
  rw [show (mountEffect initialEditorState).jsonInput = jsonStringify2 sampleJson from rfl]
  simp [validateAndParseJson, hblank, hparse]
  rfl

/-- C6 counterexample: for the empty array child at path `root.a` with that
path in ExpandState — the state expand-all produces, since `getAllPaths`
lists every path including those of childless containers — the rendered row
is `a:[` with no closing bracket at all, and in the collapsed state the row
is `a:[0 items]`, with the count summary between the brackets rather than
the brackets adjacent. So the claim as stated fails. -/
theorem c6_counterexample :
    renderNode (createNode ({"root.a"} : Finset String) "a" (.arr .nil) "root.a") 1 =
      [⟨28, false, "a:["⟩] ∧
    (∀ line ∈ renderNode (createNode ({"root.a"} : Finset String) "a" (.arr .nil)
      "root.a") 1, ']' ∉ line.text.data) ∧
    renderNode (createNode (∅ : Finset String) "a" (.arr .nil) "root.a") 1 =
      [⟨28, false, "a:[0 items]"⟩] := by decide

/-- C6 (amended): a container node with no children always renders as a
single row with no expand affordance; when its path is not in ExpandState
the row shows the opening bracket, a zero-count summary and the closing
bracket on that one line; when its path is in ExpandState (reachable through
expand-all) the summary and the closing bracket are omitted, leaving the
opening bracket alone — contrary to the claim's "adjacent brackets
regardless of ExpandState" (`c6_counterexample`). -/
theorem c6_empty_container (ex : ExpandState) (key path : String) (depth : Nat)
    (v : JsonValue) (hv : v = .arr .nil ∨ v = .obj .nil) :
    renderNode (createNode ex key v path) depth =
      [⟨depth * 20 + 8, false,
        key ++ ":" ++ (if v = .arr .nil then "[" else "\x7b") ++
          (if path ∈ ex then ""
           else if v = .arr .nil then "0 items]" else "0 keys\x7d")⟩] := by
  rcases hv with hv | hv <;> subst hv <;> by_cases hmem : path ∈ ex <;>
    simp [createNode, renderNode, hasChildrenB, childCount, renderValueText, hmem,
      createNodeArr, createNodeObj, JsonNodeList.length] <;>
    apply string_data_injective <;>
    simp [String.data_append, show natDigits 0 = [Char.ofNat 48] from rfl]

/-- Witness for C6: the empty object at an expanded path and at a collapsed
path. -/
theorem c6_witness :
    renderNode (createNode ({"root.x"} : Finset String) "x" (.obj .nil) "root.x") 1 =
      [⟨28, false, "x" ++ ":" ++ "\x7b" ++ ""⟩] ∧
    renderNode (createNode (∅ : Finset String) "x" (.obj .nil) "root.x") 1 =
      [⟨28, false, "x" ++ ":" ++ "\x7b" ++ "0 keys\x7d"⟩] := by
  constructor
  · have h := c6_empty_container ({"root.x"} : Finset String) "x" "root.x" 1
      (.obj .nil) (Or.inr rfl)
    simpa using h
  · have h := c6_empty_container (∅ : Finset String) "x" "root.x" 1
      (.obj .nil) (Or.inr rfl)
    simpa using h
